import Mathlib

/-!
Verification development for a small React-like UI rendering runtime:
the reconciliation engine (reconcile / mount / update / reconcileChildren),
the path generator (createChildPath), the DOM helper layer
(setDomProps, updateDomProps, getDomNodes, getFirstDom, insertInstance,
removeInstance), and the hook runtime (useState, useEffect, flushEffects,
cleanupUnusedHooks).

The TypeScript source is embedded shallowly: descriptors (VNode) and
instances are first-order inductive data, JavaScript runtime values are a
small value universe (JSVal / PropVal), the mutable browser DOM and the
process-wide hook context are a single explicit state record (St) threaded
through every function, and component functions plus effect thunks are
supplied by an environment of Lean functions.  Recursion through component
invocation is bounded by explicit fuel; fuel exhaustion returns none.
-/

namespace MiniReact

/-- JavaScript runtime values stored in hook state slots and dependency
arrays.  Objects and functions are represented by opaque identities, so
that strict equality and Object.is coincide with equality of this type.
(Float subtleties of Object.is such as NaN and negative zero are outside
the model; numbers are integers here.) -/
inductive JSVal where
  | num (n : Int)
  | str (s : String)
  | bool (b : Bool)
  | null
  | undef
  | obj (oid : Nat)
  | fn (fid : Nat)
  deriving DecidableEq, Repr

/-- Values of descriptor props other than children: strings, numbers,
booleans, null, event-handler function references, and style objects.
A style object carries an object identity (used by strict equality) plus
its enumerable entries. -/
inductive PropVal where
  | str (s : String)
  | num (n : Int)
  | bool (b : Bool)
  | null
  | fn (fid : Nat)
  | styleObj (oid : Nat) (entries : List (String × String))
  deriving DecidableEq, Repr

/-- The four shapes of descriptor type tags: the TEXT_ELEMENT sentinel, the
Fragment sentinel, a host tag string, and a component function reference
(identified by cid; the name field mirrors Function.prototype.name).
Two function references are strictly equal exactly when their cid agree;
a single function has a single name, so full equality is used. -/
inductive NodeType where
  | text
  | fragment
  | host (tag : String)
  | component (cid : Nat) (name : String)
  deriving DecidableEq, Repr

mutual
/-- A descriptor (VNode from types.ts): a type tag, an optional key, the
non-children props (attrs), and the children list.  props.children is the
children field; props.nodeValue is the "nodeValue" entry of attrs. -/
inductive VNode where
  | mk (ntype : NodeType) (key : Option String)
       (attrs : List (String × PropVal)) (children : VNodeList)
  deriving DecidableEq, Repr
/-- Children lists of descriptors (a concrete list type so that equality
and recursion over the mutual structure behave well). -/
inductive VNodeList where
  | nil
  | cons (hd : VNode) (tl : VNodeList)
  deriving DecidableEq, Repr
end

def VNode.ntype : VNode → NodeType
  | .mk t _ _ _ => t

def VNode.key : VNode → Option String
  | .mk _ k _ _ => k

def VNode.attrs : VNode → List (String × PropVal)
  | .mk _ _ a _ => a

def VNode.childrenL : VNode → VNodeList
  | .mk _ _ _ c => c

def VNodeList.toList : VNodeList → List VNode
  | .nil => []
  | .cons h t => h :: t.toList

def VNodeList.ofList : List VNode → VNodeList
  | [] => .nil
  | h :: t => .cons h (VNodeList.ofList t)

/-- props.children of a descriptor, as a plain list. -/
def VNode.children (n : VNode) : List VNode :=
  n.childrenL.toList

/-- NodeTypes constants (constants.ts): the instance kind discriminator. -/
inductive Kind where
  | TEXT
  | HOST
  | FRAGMENT
  | COMPONENT
  deriving DecidableEq, Repr

mutual
/-- An instance (Instance from types.ts): kind, owned concrete node
(present for TEXT/HOST), the descriptor that last produced it, child
instances (entries may be null), key, path, and an object identity iid
(JavaScript object reference identity, allocated at mount). -/
inductive Instance where
  | mk (kind : Kind) (dom : Option Nat) (node : VNode)
       (children : InstList) (key : Option String)
       (path : String) (iid : Nat)
  deriving Repr
/-- Child instance lists; an entry is either null or an instance
(two cons forms, so the mutual structure stays first-order). -/
inductive InstList where
  | nil
  | consNull (tl : InstList)
  | consInst (hd : Instance) (tl : InstList)
  deriving Repr
end

def Instance.kind : Instance → Kind
  | .mk k _ _ _ _ _ _ => k

def Instance.dom : Instance → Option Nat
  | .mk _ d _ _ _ _ _ => d

def Instance.node : Instance → VNode
  | .mk _ _ n _ _ _ _ => n

def Instance.childrenL : Instance → InstList
  | .mk _ _ _ c _ _ _ => c

def Instance.key : Instance → Option String
  | .mk _ _ _ _ k _ _ => k

def Instance.path : Instance → String
  | .mk _ _ _ _ _ p _ => p

def Instance.iid : Instance → Nat
  | .mk _ _ _ _ _ _ i => i

def InstList.toList : InstList → List (Option Instance)
  | .nil => []
  | .consNull t => none :: t.toList
  | .consInst h t => some h :: t.toList

def InstList.ofList : List (Option Instance) → InstList
  | [] => .nil
  | none :: t => .consNull (InstList.ofList t)
  | some h :: t => .consInst h (InstList.ofList t)

def Instance.children (i : Instance) : List (Option Instance) :=
  i.childrenL.toList

/-- Hook slots (types.ts): a plain state value, or an effect record
with a dependency snapshot (null when deps was not supplied), an optional
cleanup thunk, and the effect thunk (both thunks by function identity). -/
inductive Hook where
  | state (v : JSVal)
  | effect (deps : Option (List JSVal)) (cleanup : Option Nat) (eff : Nat)
  deriving DecidableEq, Repr

/-- An entry of the pending-effects queue: a component path and the hook
cursor of the effect slot. -/
structure EffectEntry where
  path : String
  cursor : Nat
  deriving DecidableEq, Repr

/-- Modelled from the spec: every operation the core performs on the live
render target (Render Target Adapter, spec section 6), recorded so that
"zero DOM mutations" is observable. -/
inductive Mutation where
  | createEl (id : Nat) (tag : String)
  | createText (id : Nat) (s : String)
  | setAttr (id : Nat) (k v : String)
  | removeAttr (id : Nat) (k : String)
  | addListener (id : Nat) (k : String)
  | removeListener (id : Nat) (k : String)
  | setClassName (id : Nat) (v : String)
  | setStyleProp (id : Nat) (k v : String)
  | setNodeValue (id : Nat) (v : String)
  | insertBefore (parent child anchor : Nat)
  | appendChild (parent child : Nat)
  | removeChild (parent child : Nat)
  deriving DecidableEq, Repr

/-- Trace events for hook thunk invocations: a stored cleanup ran, or an
effect thunk ran, at a given path and slot index. -/
inductive HookEvent where
  | cleanupRun (path : String) (cursor : Nat) (fid : Nat)
  | effectRun (path : String) (cursor : Nat) (fid : Nat)
  deriving DecidableEq, Repr

/-- Association list lookup (first match), used for JS Map get and object
key lookup. -/
def alGet {α : Type} : List (String × α) → String → Option α
  | [], _ => none
  | (k, v) :: t, key => if k = key then some v else alGet t key

/-- JS Map set: replace the value in place when the key is present
(keeping insertion order), otherwise append. -/
def alSet {α : Type} : List (String × α) → String → α → List (String × α)
  | [], key, v => [(key, v)]
  | (k, w) :: t, key, v =>
    if k = key then (k, v) :: t else (k, w) :: alSet t key v

/-- JS Map delete: remove the entry for a key (keys are unique). -/
def alDelete {α : Type} : List (String × α) → String → List (String × α)
  | [], _ => []
  | (k, v) :: t, key => if k = key then t else (k, v) :: alDelete t key

def alHas {α : Type} (l : List (String × α)) (key : String) : Bool :=
  (alGet l key).isSome

/-- Modelled from the spec: the process-wide context singleton
(the missing context module) plus the live render target.  Holds the DOM
node store, the hook store (context.hooks.state as path to array-id plus
an array heap, so that array object identity is preserved),
context.hooks.cursor, context.hooks.visited, the component stack, the
pending-effects queue (context.effects.queue), coalescing request counters
for the render and effect-flush schedulers (withEnqueue is modelled as
counting requests; the deferred execution itself is outside the model),
and the root record (context.root). -/
structure St where
  -- DOM node store
  nextId : Nat
  parentOf : Nat → Option Nat
  childListOf : Nat → List Nat
  tagOf : Nat → String
  isText : Nat → Bool
  textValOf : Nat → String
  attrsOf : Nat → List (String × String)
  listenersOf : Nat → List (String × PropVal)
  stylesOf : Nat → List (String × String)
  classNameOf : Nat → String
  log : List Mutation
  -- hook context
  hookArr : List (String × Nat)
  hookHeap : Nat → List Hook
  nextArrId : Nat
  cursorMap : List (String × Nat)
  visited : List String
  compStack : List String
  effQueue : List EffectEntry
  renderRequests : Nat
  flushRequests : Nat
  hookTrace : List HookEvent
  nextIid : Nat
  -- context.root
  rootContainer : Option Nat
  rootNode : Option VNode
  rootInstance : Option Instance

/-- Modelled from the spec: string coercion used by setAttribute and by
style assignment (String(value)). -/
def jsToString : PropVal → String
  | .str s => s
  | .num n => toString n
  | .bool true => "true"
  | .bool false => "false"
  | .null => "null"
  | .fn _ => "function"
  | .styleObj _ _ => "[object Object]"

/-- The element of a list immediately after the first occurrence of x. -/
def elemAfter : List Nat → Nat → Option Nat
  | [], _ => none
  | [a], x => if a = x then none else none
  | a :: b :: t, x => if a = x then some b else elemAfter (b :: t) x

/-- Modelled from the spec: node.nextSibling of the render target — the
node after this one in its parent child list, null when detached or last. -/
def nextSiblingOf (st : St) (n : Nat) : Option Nat :=
  match st.parentOf n with
  | none => none
  | some p => elemAfter (st.childListOf p) n

/-- Remove a node id from a child list. -/
def listRemove (l : List Nat) (x : Nat) : List Nat :=
  l.filter (fun a => a ≠ x)

/-- Insert a node id immediately before an anchor id (before the first
occurrence; the anchor is always a current child where this is used). -/
def listInsBefore : List Nat → Nat → Nat → List Nat
  | [], n, _ => [n]
  | a :: t, n, anchor =>
    if a = anchor then n :: a :: t else a :: listInsBefore t n anchor

/-- Modelled from the spec: document.createElement — allocate a fresh
element node. -/
def createElementOp (st : St) (tag : String) : Nat × St :=
  let id := st.nextId
  (id, { st with
    nextId := id + 1
    tagOf := fun i => if i = id then tag else st.tagOf i
    isText := fun i => if i = id then false else st.isText i
    childListOf := fun i => if i = id then [] else st.childListOf i
    parentOf := fun i => if i = id then none else st.parentOf i
    attrsOf := fun i => if i = id then [] else st.attrsOf i
    listenersOf := fun i => if i = id then [] else st.listenersOf i
    stylesOf := fun i => if i = id then [] else st.stylesOf i
    classNameOf := fun i => if i = id then "" else st.classNameOf i
    log := st.log ++ [.createEl id tag] })

/-- Modelled from the spec: document.createTextNode — allocate a fresh
text node. -/
def createTextNodeOp (st : St) (s : String) : Nat × St :=
  let id := st.nextId
  (id, { st with
    nextId := id + 1
    isText := fun i => if i = id then true else st.isText i
    textValOf := fun i => if i = id then s else st.textValOf i
    parentOf := fun i => if i = id then none else st.parentOf i
    childListOf := fun i => if i = id then [] else st.childListOf i
    log := st.log ++ [.createText id s] })

/-- Modelled from the spec: detach a node from its current parent child
list, if any (the implicit removal step of insertBefore/appendChild). -/
def detach (st : St) (n : Nat) : St :=
  match st.parentOf n with
  | none => st
  | some p =>
    { st with
      childListOf := fun i =>
        if i = p then listRemove (st.childListOf p) n else st.childListOf i
      parentOf := fun i => if i = n then none else st.parentOf i }

/-- Modelled from the spec: parent.insertBefore(node, anchor) — move the
node (detaching it first) to the position immediately before the anchor. -/
def insertBeforeOp (st : St) (p n anchor : Nat) : St :=
  let st1 := detach st n
  { st1 with
    childListOf := fun i =>
      if i = p then listInsBefore (st1.childListOf p) n anchor
      else st1.childListOf i
    parentOf := fun i => if i = n then some p else st1.parentOf i
    log := st1.log ++ [.insertBefore p n anchor] }

/-- Modelled from the spec: parent.appendChild(node) — move the node
(detaching it first) to the end of the parent child list. -/
def appendChildOp (st : St) (p n : Nat) : St :=
  let st1 := detach st n
  { st1 with
    childListOf := fun i =>
      if i = p then st1.childListOf p ++ [n] else st1.childListOf i
    parentOf := fun i => if i = n then some p else st1.parentOf i
    log := st1.log ++ [.appendChild p n] }

/-- Modelled from the spec: parent.removeChild(node) — callers check the
parent first, so the node is a current child here. -/
def removeChildOp (st : St) (p n : Nat) : St :=
  { st with
    childListOf := fun i =>
      if i = p then listRemove (st.childListOf p) n else st.childListOf i
    parentOf := fun i => if i = n then none else st.parentOf i
    log := st.log ++ [.removeChild p n] }

/-- Modelled from the spec: dom.setAttribute(key, value) with the string
coercion the browser applies. -/
def setAttributeOp (st : St) (id : Nat) (k v : String) : St :=
  { st with
    attrsOf := fun i => if i = id then alSet (st.attrsOf id) k v else st.attrsOf i
    log := st.log ++ [.setAttr id k v] }

/-- Modelled from the spec: dom.removeAttribute(key). -/
def removeAttributeOp (st : St) (id : Nat) (k : String) : St :=
  { st with
    attrsOf := fun i => if i = id then alDelete (st.attrsOf id) k else st.attrsOf i
    log := st.log ++ [.removeAttr id k] }

/-- Modelled from the spec: dom.addEventListener(type, handler).
(The browser also dedupes identical pairs; no claim depends on that.) -/
def addEventListenerOp (st : St) (id : Nat) (k : String) (v : PropVal) : St :=
  { st with
    listenersOf := fun i =>
      if i = id then st.listenersOf id ++ [(k, v)] else st.listenersOf i
    log := st.log ++ [.addListener id k] }

/-- Remove the first matching (type, handler) pair. -/
def listenerRemove : List (String × PropVal) → String → PropVal → List (String × PropVal)
  | [], _, _ => []
  | (k, v) :: t, key, h =>
    if k = key ∧ v = h then t else (k, v) :: listenerRemove t key h

/-- Modelled from the spec: dom.removeEventListener(type, handler). -/
def removeEventListenerOp (st : St) (id : Nat) (k : String) (v : PropVal) : St :=
  { st with
    listenersOf := fun i =>
      if i = id then listenerRemove (st.listenersOf id) k v else st.listenersOf i
    log := st.log ++ [.removeListener id k] }

/-- Modelled from the spec: dom.className = value. -/
def setClassNameOp (st : St) (id : Nat) (v : String) : St :=
  { st with
    classNameOf := fun i => if i = id then v else st.classNameOf i
    log := st.log ++ [.setClassName id v] }

/-- Modelled from the spec: dom.style[key] = value. -/
def setStylePropOp (st : St) (id : Nat) (k v : String) : St :=
  { st with
    stylesOf := fun i => if i = id then alSet (st.stylesOf id) k v else st.stylesOf i
    log := st.log ++ [.setStyleProp id k v] }

/-- Modelled from the spec: textNode.nodeValue = value. -/
def setNodeValueOp (st : St) (id : Nat) (v : String) : St :=
  { st with
    textValOf := fun i => if i = id then v else st.textValOf i
    log := st.log ++ [.setNodeValue id v] }

/-! ## DOM helpers (dom.ts, src/unnamed/part_001) -/

mutual
/-- getDomNodes on a non-null instance: HOST/TEXT own their node; COMPONENT
and FRAGMENT collect the nodes of their children recursively. -/
def instDomNodes : Instance → List Nat
  | .mk kind dom _ children _ _ _ =>
    if kind = Kind.HOST ∨ kind = Kind.TEXT then
      match dom with
      | some d => [d]
      | none => []
    else instListDomNodes children
/-- The children traversal of getDomNodes (the forEach over children). -/
def instListDomNodes : InstList → List Nat
  | .nil => []
  | .consNull t => instListDomNodes t
  | .consInst h t => instDomNodes h ++ instListDomNodes t
end

/-- getDomNodes (src/unnamed/part_001 lines 151-166): all concrete DOM
nodes under an instance; null yields the empty list. -/
def getDomNodes : Option Instance → List Nat
  | none => []
  | some i => instDomNodes i

mutual
/-- getFirstDom on a non-null instance: HOST/TEXT return their own node;
COMPONENT and FRAGMENT search their children. -/
def instFirstDom : Instance → Option Nat
  | .mk kind dom _ children _ _ _ =>
    if kind = Kind.HOST ∨ kind = Kind.TEXT then dom
    else instListFirstDom children
/-- getFirstDomFromChildren (part_001 lines 186-192): the first child that
yields a concrete node wins. -/
def instListFirstDom : InstList → Option Nat
  | .nil => none
  | .consNull t => instListFirstDom t
  | .consInst h t =>
    match instFirstDom h with
    | some d => some d
    | none => instListFirstDom t
end

/-- getFirstDom (src/unnamed/part_001 lines 171-181). -/
def getFirstDom : Option Instance → Option Nat
  | none => none
  | some i => instFirstDom i

mutual
/-- getDomNodes of packages/react/src/core/dom.ts (lines 99-111): the same
traversal written with map and flat. -/
def instDomNodesPkg : Instance → List Nat
  | .mk kind dom _ children _ _ _ =>
    if kind = Kind.HOST then (match dom with | some d => [d] | none => [])
    else if kind = Kind.TEXT then (match dom with | some d => [d] | none => [])
    else instListDomNodesPkg children
def instListDomNodesPkg : InstList → List Nat
  | .nil => []
  | .consNull t => instListDomNodesPkg t
  | .consInst h t => instDomNodesPkg h ++ instListDomNodesPkg t
end

def getDomNodesPkg : Option Instance → List Nat
  | none => []
  | some i => instDomNodesPkg i

/-- getFirstDom of packages/react/src/core/dom.ts (lines 116-128): for
FRAGMENT and COMPONENT it reads children[0]?.dom ?? null directly, without
recursing into the first child. -/
def getFirstDomPkg : Option Instance → Option Nat
  | none => none
  | some i =>
    if i.kind = Kind.HOST then i.dom
    else if i.kind = Kind.TEXT then i.dom
    else
      match i.childrenL with
      | .nil => none
      | .consNull _ => none
      | .consInst h _ => h.dom

/-- insertInstance (part_001 lines 198-219): place every concrete node of
the instance before the anchor (or append when the anchor is null),
skipping nodes already in the right position. -/
def insertInstance (st : St) (parentDom : Nat) (inst : Option Instance)
    (anchor : Option Nat) : St :=
  (getDomNodes inst).foldl
    (fun st node =>
      if st.parentOf node = some parentDom ∧ nextSiblingOf st node = anchor then
        st
      else
        match anchor with
        | some a => insertBeforeOp st parentDom node a
        | none => appendChildOp st parentDom node)
    st

/-- removeInstance (part_001 lines 224-233): remove every concrete node of
the instance that is currently a child of parentDom. -/
def removeInstance (st : St) (parentDom : Nat) (inst : Option Instance) : St :=
  (getDomNodes inst).foldl
    (fun st node =>
      if st.parentOf node = some parentDom then removeChildOp st parentDom node
      else st)
    st

/-- onClick to click: key.toLowerCase().substring(2). -/
def eventTypeOf (key : String) : String :=
  (key.toLower).drop 2

def isStyleObject : PropVal → Bool
  | .styleObj _ _ => true
  | _ => false

/-- JavaScript truthiness on prop values. -/
def truthyProp : PropVal → Bool
  | .null => false
  | .bool b => b
  | .num n => n ≠ 0
  | .str s => s ≠ ""
  | .fn _ => true
  | .styleObj _ _ => true

/-- setDomProps (part_001 lines 11-48): apply every prop to a fresh DOM
element — event handlers, className, style objects, boolean attributes,
and plain attributes.  (A style prop that is null would throw in the
source via Object.keys(null); that branch is unreachable here and null
style values fall through to attribute removal.) -/
def setDomProps (st : St) (dom : Nat) (props : List (String × PropVal)) : St :=
  props.foldl
    (fun st kv =>
      let key := kv.1
      let value := kv.2
      if key = "children" then st
      else if key.startsWith "on" then
        addEventListenerOp st dom (eventTypeOf key) value
      else if key = "className" then
        setClassNameOp st dom (jsToString value)
      else
        match value with
        | .styleObj _ entries =>
          if key = "style" then
            entries.foldl (fun st e => setStylePropOp st dom e.1 e.2) st
          else setAttributeOp st dom key (jsToString value)
        | .bool true => setAttributeOp st dom key ""
        | .bool false => removeAttributeOp st dom key
        | .null => removeAttributeOp st dom key
        | _ => setAttributeOp st dom key (jsToString value))
    st

/-- updateDomProps (part_001 lines 54-145): first remove props absent from
the next props (handlers unbound, className cleared, style keys zeroed,
attributes removed), then set changed props, skipping any key whose value
is strictly equal to the previous one. -/
def updateDomProps (st : St) (dom : Nat) (prevProps nextProps : List (String × PropVal)) : St :=
  -- 1. keys removed relative to prevProps
  let st := prevProps.foldl
    (fun st kv =>
      let key := kv.1
      let prevValue := kv.2
      if key = "children" then st
      else if alHas nextProps key then st
      else if key.startsWith "on" then
        removeEventListenerOp st dom (eventTypeOf key) prevValue
      else if key = "className" then
        setClassNameOp st dom ""
      else
        match prevValue with
        | .styleObj _ entries =>
          if key = "style" then
            entries.foldl (fun st e => setStylePropOp st dom e.1 "") st
          else removeAttributeOp st dom key
        | _ => removeAttributeOp st dom key)
    st
  -- 2. new or updated keys
  nextProps.foldl
    (fun st kv =>
      let key := kv.1
      let nextValue := kv.2
      if key = "children" then st
      else
        let prevValue := alGet prevProps key
        if prevValue = some nextValue then st
        else if key.startsWith "on" then
          let st := match prevValue with
            | some pv => if truthyProp pv then removeEventListenerOp st dom (eventTypeOf key) pv else st
            | none => st
          addEventListenerOp st dom (eventTypeOf key) nextValue
        else if key = "className" then
          setClassNameOp st dom (jsToString nextValue)
        else
          match nextValue with
          | .styleObj _ entries =>
            if key = "style" then
              let st := match prevValue with
                | some (.styleObj _ prevEntries) =>
                  prevEntries.foldl
                    (fun st e =>
                      if alHas entries e.1 then st else setStylePropOp st dom e.1 "")
                    st
                | _ => st
              entries.foldl (fun st e => setStylePropOp st dom e.1 e.2) st
            else setAttributeOp st dom key (jsToString nextValue)
          | .bool true => setAttributeOp st dom key ""
          | .bool false => removeAttributeOp st dom key
          | .null => removeAttributeOp st dom key
          | _ => setAttributeOp st dom key (jsToString nextValue))
    st

/-! ## Path generator (elements.ts) -/

/-- The comparison siblings[i]?.type === nodeType: an in-range sibling
matches when nodeType is exactly its type; out of range yields undefined,
which matches only an undefined nodeType. -/
def sibTypeMatches (siblings : List VNode) (nodeType : Option NodeType) (i : Nat) : Bool :=
  match siblings.get? i with
  | some s => nodeType = some s.ntype
  | none => nodeType = none

/-- The counting loop of createChildPath: how many positions before index
satisfy siblings[i]?.type === nodeType. -/
def countSameType (siblings : List VNode) (nodeType : Option NodeType) : Nat → Nat
  | 0 => 0
  | n + 1 =>
    countSameType siblings nodeType n +
      (if sibTypeMatches siblings nodeType n then 1 else 0)

def isComponentType : Option NodeType → Bool
  | some (.component _ _) => true
  | _ => false

/-- createChildPath (src/unnamed/part_003 lines 86-116): keyed children get
parent.k(key); unkeyed children get parent.i(typeIndex) when the type is a
component function, else parent.c(index). -/
def createChildPath (parentPath : String) (key : Option String) (index : Nat)
    (nodeType : Option NodeType) (siblings : List VNode) : String :=
  match key with
  | some k => parentPath ++ ".k" ++ k
  | none =>
    let typeIndex :=
      match nodeType with
      | some _ => countSameType siblings nodeType index
      | none => 0
    let isComponent := isComponentType nodeType
    let token :=
      if isComponent then "i" ++ toString typeIndex else "c" ++ toString index
    parentPath ++ "." ++ token

/-- createChildPath of packages/react/src/core/elements.ts (lines 84-117):
for unkeyed component children the token is the function name (falling
back to "Component") followed by the type index, not "i" plus the index. -/
def createChildPathPkg (parentPath : String) (key : Option String) (index : Nat)
    (nodeType : Option NodeType) (siblings : List VNode) : String :=
  match key with
  | some k => parentPath ++ ".k" ++ k
  | none =>
    let isComponent := isComponentType nodeType
    if isComponent then
      let typeIndex := countSameType siblings nodeType index
      let typeName :=
        match nodeType with
        | some (.component _ name) => if name = "" then "Component" else name
        | _ => "Component"
      parentPath ++ "." ++ typeName ++ toString typeIndex
    else
      parentPath ++ "." ++ (if isComponent then "i" ++ toString index else "c" ++ toString index)

/-! ## Equality utilities (utils, src/unnamed/part_006) -/

/-- The element-wise Object.is loop of shallowEquals on arrays (Object.is
coincides with equality of JSVal). -/
def depsEqual : List JSVal → List JSVal → Bool
  | [], [] => true
  | x :: xs, y :: ys => x = y && depsEqual xs ys
  | _, _ => false

/-- shallowEquals (part_006 lines 5-43) specialized to the call in
useEffect: the first argument is a dependency array, the second is the
stored deps field — undefined (none, a state slot or no slot), null
(some none), or an array.  On two arrays this is the length check plus
element-wise Object.is; against null or undefined it is false. -/
def shallowEqualsDeps (a : List JSVal) : Option (Option (List JSVal)) → Bool
  | none => false
  | some none => false
  | some (some l) => a.length = l.length && depsEqual a l

/-! ## Hook runtime (src/unnamed/part_000) -/

/-- Modelled from the spec: context.hooks.currentPath — the top of the
component stack. -/
def currentPath (st : St) : String :=
  (st.compStack.head?).getD ""

/-- Modelled from the spec: context.hooks.currentCursor — the cursor map
entry of the current path (0 before the first hook call). -/
def currentCursor (st : St) : Nat :=
  (alGet st.cursorMap (currentPath st)).getD 0

/-- Modelled from the spec: context.hooks.currentHooks — the slot array of
the current path.  Mount guarantees the entry exists; the default id 0 is
never reached from the reconciler. -/
def currentHooksId (st : St) : Nat :=
  (alGet st.hookArr (currentPath st)).getD 0

def heapSet (st : St) (arrId : Nat) (l : List Hook) : St :=
  { st with hookHeap := fun i => if i = arrId then l else st.hookHeap i }

/-- Modelled from the spec: enqueueRender = withEnqueue(render) — request a
coalesced render pass (the deferred microtask is outside the model; the
counter observes that a request was made and that nothing ran
synchronously). -/
def enqueueRender (st : St) : St :=
  { st with renderRequests := st.renderRequests + 1 }

/-- Modelled from the spec: enqueueFlushEffects = withEnqueue(flushEffects),
as a request counter. -/
def enqueueFlushEffects (st : St) : St :=
  { st with flushRequests := st.flushRequests + 1 }

/-- The slot value hooks[cursor] seen as a JavaScript value: an absent slot
reads as undefined; an effect record is an object outside the JSVal
universe (reading it as state is the hook-order logic error of spec
section 7), represented as none. -/
def slotAsJS : Option Hook → Option JSVal
  | none => some .undef
  | some (.state v) => some v
  | some (.effect _ _ _) => none

/-- A setter closure produced by useState: it captures the slot array
object (by array identity) and the cursor. -/
structure Setter where
  arrId : Nat
  cursor : Nat
  deriving DecidableEq, Repr

/-- The setter body (part_000 lines 236-246): compute the next value
(value or updater of the previous value), compare with Object.is against
the stored slot, and only on change overwrite the slot in place and
enqueue a render pass. -/
def setState (setter : Setter) (nextValue : JSVal ⊕ (JSVal → JSVal)) (st : St) : St :=
  let hooks := st.hookHeap setter.arrId
  let slot := hooks.get? setter.cursor
  let newValue :=
    match nextValue with
    | .inl v => v
    | .inr f => f ((slotAsJS slot).getD .undef)
  let isSame :=
    match slotAsJS slot with
    | some v => v == newValue
    | none => false
  if isSame then st
  else
    enqueueRender (heapSet st setter.arrId (hooks.set setter.cursor (Hook.state newValue)))

/-- useState (part_000 lines 219-252): read the current path, cursor and
slot array; push the (lazily computed) initial value on first render;
return the stored value and a setter; bump the cursor. -/
def useState (initial : JSVal ⊕ (Unit → JSVal)) (st : St) : (JSVal × Setter) × St :=
  let path := currentPath st
  let cursor := currentCursor st
  let arrId := currentHooksId st
  let hooks0 := st.hookHeap arrId
  let pushed : List Hook × St :=
    if cursor ≥ hooks0.length then
      let value := match initial with | .inl v => v | .inr f => f ()
      let hooks1 := hooks0 ++ [Hook.state value]
      (hooks1, heapSet st arrId hooks1)
    else (hooks0, st)
  let hooks1 := pushed.1
  let st1 := pushed.2
  let currentState := (slotAsJS (hooks1.get? cursor)).getD .undef
  let st2 := { st1 with cursorMap := alSet st1.cursorMap path (cursor + 1) }
  ((currentState, ⟨arrId, cursor⟩), st2)

def hookFalsy : Option Hook → Bool
  | none => true
  | some (.state v) =>
    match v with
    | .null => true
    | .undef => true
    | .bool b => !b
    | .num n => n = 0
    | .str s => s = ""
    | _ => false
  | some (.effect _ _ _) => false

/-- oldHook.deps === null holds exactly for an effect slot whose stored
deps is null. -/
def oldDepsIsNull : Option Hook → Bool
  | some (.effect none _ _) => true
  | _ => false

/-- The stored deps field as a JavaScript value: undefined for no slot or
a state slot, null or an array for an effect slot. -/
def oldDepsVal : Option Hook → Option (Option (List JSVal))
  | none => none
  | some (.state _) => none
  | some (.effect d _ _) => some d

/-- oldHook?.cleanup ?? null. -/
def oldCleanup : Option Hook → Option Nat
  | some (.effect _ c _) => c
  | _ => none

/-- useEffect (part_000 lines 259-300): decide depsChanged (first render,
no deps supplied, stored deps null, or shallow inequality); on change
append (path, cursor) to the pending-effects queue and request a flush;
always store the new hook record carrying the old cleanup forward; bump
the cursor. -/
def useEffect (effect : Nat) (deps : Option (List JSVal)) (st : St) : St :=
  let path := currentPath st
  let cursor := currentCursor st
  let arrId := currentHooksId st
  let hooks0 := st.hookHeap arrId
  let oldHook := hooks0.get? cursor
  let depsChanged :=
    hookFalsy oldHook ||
    deps.isNone ||
    oldDepsIsNull oldHook ||
    !(shallowEqualsDeps (deps.getD []) (oldDepsVal oldHook))
  let st1 :=
    if depsChanged then
      enqueueFlushEffects { st with effQueue := st.effQueue ++ [⟨path, cursor⟩] }
    else st
  let newHook := Hook.effect deps (oldCleanup oldHook) effect
  let hooks1 :=
    if cursor ≥ hooks0.length then hooks0 ++ [newHook] else hooks0.set cursor newHook
  let st2 := heapSet st1 arrId hooks1
  { st2 with cursorMap := alSet st2.cursorMap path (cursor + 1) }

/-- The environment of hook thunks: running an effect may transform the
state and yields its returned cleanup when that value is callable
(none when not callable); running a cleanup may transform the state. -/
structure HookEnv where
  runEffect : Nat → St → St × Option Nat
  runCleanup : Nat → St → St

/-- One entry of a flush (the body of the forEach in part_000 lines
154-175): look the slot up; if it is still an effect record, run the
stored cleanup (if any), then the effect thunk, and store its returned
cleanup in the slot (none when the return value is not callable).  Thunk
invocations are recorded in the trace just before they run. -/
def flushStep (env : HookEnv) (st : St) (entry : EffectEntry) : St :=
  match alGet st.hookArr entry.path with
  | none => st
  | some arrId =>
    match (st.hookHeap arrId).get? entry.cursor with
    | some (Hook.effect _ cleanup eff) =>
      let st1 :=
        match cleanup with
        | some c =>
          env.runCleanup c
            { st with hookTrace := st.hookTrace ++ [HookEvent.cleanupRun entry.path entry.cursor c] }
        | none => st
      let st2 :=
        { st1 with hookTrace := st1.hookTrace ++ [HookEvent.effectRun entry.path entry.cursor eff] }
      let res := env.runEffect eff st2
      let st3 := res.1
      let hooks := st3.hookHeap arrId
      match hooks.get? entry.cursor with
      | some (Hook.effect d _ e) =>
        heapSet st3 arrId (hooks.set entry.cursor (Hook.effect d res.2 e))
      | _ => st3
    | _ => st

/-- flushEffects (part_000 lines 150-176): snapshot the pending-effects
queue and clear it, then process the snapshot in order. -/
def flushEffects (env : HookEnv) (st : St) : St :=
  let effectsToRun := st.effQueue
  effectsToRun.foldl (flushStep env) { st with effQueue := [] }

/-- The inner forEach of cleanupUnusedHooks over the slots of one path:
for each effect slot with a truthy cleanup, record the event and run the
cleanup thunk. -/
def runSlotCleanups (env : HookEnv) (path : String) (slots : List (Nat × Hook)) (st : St) : St :=
  slots.foldl
    (fun st ih =>
      match ih.2 with
      | Hook.effect _ (some c) _ =>
        env.runCleanup c
          { st with hookTrace := st.hookTrace ++ [HookEvent.cleanupRun path ih.1 c] }
      | _ => st)
    st

/-- One step of the outer forEach of cleanupUnusedHooks: visited paths are
skipped; an unvisited path has its effect cleanups run and is collected
for removal. -/
def cleanupStep (env : HookEnv) (acc : St × List String) (pa : String × Nat) :
    St × List String :=
  if acc.1.visited.contains pa.1 then acc
  else (runSlotCleanups env pa.1 ((acc.1.hookHeap pa.2).enum) acc.1, acc.2 ++ [pa.1])

/-- cleanupUnusedHooks (part_000 lines 186-212): for every path in the
hook store that the current render did not visit, run the cleanup of every
effect slot that has one, then delete the path from both the state map
and the cursor map. -/
def cleanupUnusedHooks (env : HookEnv) (st : St) : St :=
  let step := st.hookArr.foldl (cleanupStep env) (st, [])
  let st1 := step.1
  let pathsToRemove := step.2
  { st1 with
    hookArr := pathsToRemove.foldl (fun m p => alDelete m p) st1.hookArr
    cursorMap := pathsToRemove.foldl (fun m p => alDelete m p) st1.cursorMap }

/-! ## Reconciler (src/unnamed/part_002) -/

/-- Modelled from the spec: isEmptyValue filters null, undefined and
boolean children; children lists here are already normalized descriptors,
so the filter keeps every element. -/
def filterValidChildren (children : List VNode) : List VNode :=
  children

/-- Set.add on the visited set. -/
def setAdd (l : List String) (p : String) : List String :=
  if l.contains p then l else l ++ [p]

/-- String(props.nodeValue ?? ""). -/
def nodeValueStr (attrs : List (String × PropVal)) : String :=
  match alGet attrs "nodeValue" with
  | none => ""
  | some .null => ""
  | some v => jsToString v

def Instance.withNode : Instance → VNode → Instance
  | .mk k d _ c key p i, n => .mk k d n c key p i

def Instance.withChildrenNode : Instance → InstList → VNode → Instance
  | .mk k d _ _ key p i, c, n => .mk k d n c key p i

/-- The single child slot instance.children[0] of a component instance. -/
def Instance.firstChild (i : Instance) : Option Instance :=
  match i.childrenL with
  | .consInst c _ => some c
  | _ => none

/-- The environment of author-supplied code: component function bodies
(receiving their props as attrs and children, free to use the hook
runtime on the threaded state) and effect thunks. -/
structure Env where
  comp : Nat → List (String × PropVal) → List VNode → St → Option VNode × St
  hook : HookEnv

/-- The partition of old children into the keyed map (JS Map insertion
order) and the ordered unkeyed list (part_002 lines 148-159). -/
def partitionChildren (oldChildren : List (Option Instance)) :
    List (String × Instance) × List Instance :=
  oldChildren.foldl
    (fun acc child =>
      match child with
      | none => acc
      | some c =>
        match c.key with
        | some k => (alSet acc.1 k c, acc.2)
        | none => (acc.1, acc.2 ++ [c]))
    ([], [])

/-- The body of the backward placement pass of reconcileChildren
(part_002 lines 188-200), processing the result list right to left:
the input here is the reversed result list.  A child whose first concrete
node is absent leaves the anchor unchanged; one whose first node is not
already immediately before the anchor is moved there. -/
def adjustGo (parentDom : Nat) : List (Option Instance) → Option Nat → St → St
  | [], _, st => st
  | child :: rest, anchor, st =>
    match child with
    | none => adjustGo parentDom rest anchor st
    | some c =>
      let firstDom := getFirstDom (some c)
      let st :=
        match firstDom with
        | some fd =>
          if st.parentOf fd ≠ some parentDom ∨ nextSiblingOf st fd ≠ anchor then
            insertInstance st parentDom (some c) anchor
          else st
        | none => st
      let anchor2 := match firstDom with | some fd => some fd | none => anchor
      adjustGo parentDom rest anchor2 st

/-- The backward placement pass over the full result list. -/
def adjustDomOrder (st : St) (parentDom : Nat) (result : List (Option Instance)) : St :=
  adjustGo parentDom result.reverse none st

/-- The five mutually recursive reconciler functions at one fuel level:
each recursive call consumes one unit of fuel, so the whole block is a
single structural recursion on fuel and reduces definitionally on
concrete inputs (fuel exhaustion yields none). -/
structure RFuns where
  reconcileF : Nat → Option Instance → Option VNode → String → St →
    Option (Option Instance × St)
  mountF : Nat → VNode → String → St → Option (Instance × St)
  updateF : Nat → Instance → VNode → String → St → Option (Instance × St)
  rcLoopF : Nat → List (String × Instance) → List Instance → Nat →
    List VNode → Nat → List VNode → String → St →
    Option (List (Option Instance) × List (String × Instance) × Nat × St)
  reconcileChildrenF : Nat → List (Option Instance) → List VNode → String → St →
    Option (List (Option Instance) × St)

/-- The reconciler block (src/unnamed/part_002), tied by fuel.

reconcileF (part_002 lines 17-46): null descriptor removes the old
instance; null instance mounts; a type or key mismatch removes then
mounts fresh at the same path; otherwise update in place.

mountF (part_002 lines 51-135), one branch per descriptor kind.

updateF (part_002 lines 208-273), one branch per descriptor kind; a TEXT
instance without a dom or a HOST instance whose dom is not an element
falls through to the final plain return.

rcLoopF (part_002 lines 161-180), the walk over new children of
reconcileChildren: keyed descriptors claim their keyed old instance and
remove it from the map; unkeyed descriptors take the next unconsumed
unkeyed old instance; it returns the results plus the remaining keyed map
and the final unkeyed index.

reconcileChildrenF (part_002 lines 140-203): partition old children, walk
the new descriptors, remove every unclaimed old instance, then run the
backward placement pass. -/
def reconcilerAt (env : Env) : Nat → RFuns
  | 0 =>
    { reconcileF := fun _ _ _ _ _ => none
      mountF := fun _ _ _ _ => none
      updateF := fun _ _ _ _ _ => none
      rcLoopF := fun _ _ _ _ _ _ _ _ _ => none
      reconcileChildrenF := fun _ _ _ _ _ => none }
  | fuel + 1 =>
    let prev := reconcilerAt env fuel
    { reconcileF := fun parentDom inst node path st =>
        match node with
        | none =>
          some (none,
            match inst with
            | some _ => removeInstance st parentDom inst
            | none => st)
        | some n =>
          match inst with
          | none => (prev.mountF parentDom n path st).map (fun r => (some r.1, r.2))
          | some i =>
            if i.node.ntype ≠ n.ntype ∨ i.key ≠ n.key then
              let st1 := removeInstance st parentDom (some i)
              (prev.mountF parentDom n path st1).map (fun r => (some r.1, r.2))
            else
              (prev.updateF parentDom i n path st).map (fun r => (some r.1, r.2))
      mountF := fun parentDom n path st =>
        match n.ntype with
        | .text =>
          let textContent := nodeValueStr n.attrs
          let created := createTextNodeOp st textContent
          let st1 := created.2
          some (Instance.mk .TEXT (some created.1) n .nil n.key path st1.nextIid,
            { st1 with nextIid := st1.nextIid + 1 })
        | .fragment =>
          let newChildren := filterValidChildren n.children
          (prev.reconcileChildrenF parentDom [] newChildren path st).map
            (fun r =>
              (Instance.mk .FRAGMENT none n (InstList.ofList r.1) n.key path r.2.nextIid,
                { r.2 with nextIid := r.2.nextIid + 1 }))
        | .component cid _ =>
          let st1 := { st with
            compStack := path :: st.compStack
            visited := setAdd st.visited path }
          let st2 :=
            if (alGet st1.hookArr path).isSome then st1
            else
              { st1 with
                hookArr := st1.hookArr ++ [(path, st1.nextArrId)]
                hookHeap := fun i => if i = st1.nextArrId then [] else st1.hookHeap i
                nextArrId := st1.nextArrId + 1 }
          let st3 := { st2 with cursorMap := alSet st2.cursorMap path 0 }
          let invoked := env.comp cid n.attrs n.children st3
          let childNode := invoked.1
          let st4 := invoked.2
          let childPath := createChildPath path
            (match childNode with | some c => c.key | none => none) 0
            (childNode.map VNode.ntype)
            (match childNode with | some c => [c] | none => [])
          (prev.reconcileF parentDom none childNode childPath st4).map
            (fun r =>
              let st5 := { r.2 with compStack := r.2.compStack.tail }
              (Instance.mk .COMPONENT none n
                  (match r.1 with | some c => .consInst c .nil | none => .consNull .nil)
                  n.key path st5.nextIid,
                { st5 with nextIid := st5.nextIid + 1 }))
        | .host tag =>
          let created := createElementOp st tag
          let dom := created.1
          let st1 := setDomProps created.2 dom n.attrs
          let newChildren := filterValidChildren n.children
          (prev.reconcileChildrenF dom [] newChildren path st1).map
            (fun r =>
              (Instance.mk .HOST (some dom) n (InstList.ofList r.1) n.key path r.2.nextIid,
                { r.2 with nextIid := r.2.nextIid + 1 }))
      updateF := fun parentDom inst n path st =>
        match n.ntype with
        | .text =>
          match inst.dom with
          | some d =>
            let newTextContent := nodeValueStr n.attrs
            let st1 :=
              if alGet inst.node.attrs "nodeValue" = some (PropVal.str newTextContent) then st
              else setNodeValueOp st d newTextContent
            some (inst.withNode n, st1)
          | none => some (inst, st)
        | .fragment =>
          let newChildren := filterValidChildren n.children
          (prev.reconcileChildrenF parentDom inst.children newChildren path st).map
            (fun r => (inst.withChildrenNode (InstList.ofList r.1) n, r.2))
        | .component cid _ =>
          let st1 := { st with
            compStack := path :: st.compStack
            visited := setAdd st.visited path }
          let st2 := { st1 with cursorMap := alSet st1.cursorMap path 0 }
          let invoked := env.comp cid n.attrs n.children st2
          let childNode := invoked.1
          let st3 := invoked.2
          let oldChild := inst.firstChild
          let childPath := createChildPath path
            (match childNode with | some c => c.key | none => none) 0
            (childNode.map VNode.ntype)
            (match childNode with | some c => [c] | none => [])
          (prev.reconcileF parentDom oldChild childNode childPath st3).map
            (fun r =>
              let newChild := r.1
              let st4 := r.2
              let st5 :=
                if newChild.isSome ∧ newChild.map Instance.iid ≠ oldChild.map Instance.iid then
                  insertInstance st4 parentDom newChild none
                else st4
              let st6 := { st5 with compStack := st5.compStack.tail }
              (inst.withChildrenNode
                  (match newChild with | some c => .consInst c .nil | none => .consNull .nil) n,
                st6))
        | .host _ =>
          match inst.dom with
          | some d =>
            if st.isText d then some (inst, st)
            else
              let st1 := updateDomProps st d inst.node.attrs n.attrs
              let newChildren := filterValidChildren n.children
              (prev.reconcileChildrenF d inst.children newChildren path st1).map
                (fun r => (inst.withChildrenNode (InstList.ofList r.1) n, r.2))
          | none => some (inst, st)
      rcLoopF := fun parentDom keyed unkeyed uidx rest i sibs path st =>
        match rest with
        | [] => some ([], keyed, uidx, st)
        | newChild :: rest2 =>
          let newKey := newChild.key
          let pick : Option Instance × List (String × Instance) × Nat :=
            match newKey with
            | some k =>
              match alGet keyed k with
              | some old => (some old, alDelete keyed k, uidx)
              | none => (none, keyed, uidx)
            | none =>
              match unkeyed.get? uidx with
              | some old => (some old, keyed, uidx + 1)
              | none => (none, keyed, uidx)
          let childPath := createChildPath path newKey i (some newChild.ntype) sibs
          match prev.reconcileF parentDom pick.1 (some newChild) childPath st with
          | none => none
          | some (newInstance, st1) =>
            (prev.rcLoopF parentDom pick.2.1 unkeyed pick.2.2 rest2 (i + 1) sibs path st1).map
              (fun r => (newInstance :: r.1, r.2))
      reconcileChildrenF := fun parentDom oldChildren newChildren path st =>
        let part := partitionChildren oldChildren
        (prev.rcLoopF parentDom part.1 part.2 0 newChildren 0 newChildren path st).map
          (fun r =>
            let result := r.1
            let keyedLeft := r.2.1
            let uidx := r.2.2.1
            let st1 := r.2.2.2
            let st2 := keyedLeft.foldl (fun st kv => removeInstance st parentDom (some kv.2)) st1
            let st3 := (part.2.drop uidx).foldl (fun st c => removeInstance st parentDom (some c)) st2
            (result, adjustDomOrder st3 parentDom result)) }

/-- reconcile, entry point of the block above. -/
def reconcile (env : Env) (fuel : Nat) (parentDom : Nat) (inst : Option Instance)
    (node : Option VNode) (path : String) (st : St) : Option (Option Instance × St) :=
  (reconcilerAt env fuel).reconcileF parentDom inst node path st

/-- mount, entry point of the block above. -/
def mount (env : Env) (fuel : Nat) (parentDom : Nat) (n : VNode) (path : String)
    (st : St) : Option (Instance × St) :=
  (reconcilerAt env fuel).mountF parentDom n path st

/-- update, entry point of the block above. -/
def update (env : Env) (fuel : Nat) (parentDom : Nat) (inst : Instance) (n : VNode)
    (path : String) (st : St) : Option (Instance × St) :=
  (reconcilerAt env fuel).updateF parentDom inst n path st

/-- The new-children walk of reconcileChildren, entry point. -/
def rcLoop (env : Env) (fuel : Nat) (parentDom : Nat)
    (keyed : List (String × Instance)) (unkeyed : List Instance) (uidx : Nat)
    (rest : List VNode) (i : Nat) (sibs : List VNode) (path : String) (st : St) :
    Option (List (Option Instance) × List (String × Instance) × Nat × St) :=
  (reconcilerAt env fuel).rcLoopF parentDom keyed unkeyed uidx rest i sibs path st

/-- reconcileChildren, entry point of the block above. -/
def reconcileChildren (env : Env) (fuel : Nat) (parentDom : Nat)
    (oldChildren : List (Option Instance)) (newChildren : List VNode)
    (path : String) (st : St) : Option (List (Option Instance) × St) :=
  (reconcilerAt env fuel).reconcileChildrenF parentDom oldChildren newChildren path st

/-- render (part_002 lines 284-303): clear the visited set, reconcile the
root at path "0", store the new root instance, insert it on first mount,
then sweep unused hook state. -/
def render (env : Env) (fuel : Nat) (st : St) : Option St :=
  let st0 := { st with visited := [] }
  match st0.rootContainer, st0.rootNode with
  | some container, some node =>
    let inst := st0.rootInstance
    (reconcile env fuel container inst (some node) "0" st0).map
      (fun r =>
        let newInstance := r.1
        let st1 := { r.2 with rootInstance := newInstance }
        let st2 :=
          if newInstance.isSome ∧ inst.isNone then
            insertInstance st1 container newInstance none
          else st1
        cleanupUnusedHooks env.hook st2)
  | _, _ => some st0

/-! ## Concrete states and trees used by witnesses and counterexamples -/

/-- An initial state: one empty root element (id 0), empty hook context. -/
def emptySt : St := {
  nextId := 1, parentOf := fun _ => none, childListOf := fun _ => [],
  tagOf := fun _ => "", isText := fun _ => false, textValOf := fun _ => "",
  attrsOf := fun _ => [], listenersOf := fun _ => [], stylesOf := fun _ => [],
  classNameOf := fun _ => "", log := [], hookArr := [], hookHeap := fun _ => [],
  nextArrId := 0, cursorMap := [], visited := [], compStack := [], effQueue := [],
  renderRequests := 0, flushRequests := 0, hookTrace := [], nextIid := 0,
  rootContainer := some 0, rootNode := none, rootInstance := none }

/-- An environment whose components render nothing and whose thunks do
nothing. -/
def trivialEnv : Env := {
  comp := fun _ _ _ st => (none, st)
  hook := { runEffect := fun _ st => (st, none), runCleanup := fun _ st => st } }

/-- A text descriptor with a string nodeValue. -/
def tText (s : String) : VNode :=
  VNode.mk .text none [("nodeValue", .str s)] .nil

/-- An unkeyed div descriptor. -/
def tDiv (cs : List VNode) : VNode :=
  VNode.mk (.host "div") none [] (VNodeList.ofList cs)

/-- A keyed div descriptor. -/
def tKeyedDiv (k : String) (cs : List VNode) : VNode :=
  VNode.mk (.host "div") (some k) [] (VNodeList.ofList cs)

/-- A dummy descriptor for hand-built instances. -/
def dummyNode : VNode := VNode.mk .text none [] .nil

/-- A hand-built HOST instance owning node 7, wrapped in a COMPONENT,
wrapped in a FRAGMENT — the nesting on which the two getFirstDom variants
disagree. -/
def cexHostInst : Instance := .mk .HOST (some 7) dummyNode .nil none "x" 2

def cexCompInst : Instance := .mk .COMPONENT none dummyNode (.consInst cexHostInst .nil) none "x" 1

def cexFragInst : Instance := .mk .FRAGMENT none dummyNode (.consInst cexCompInst .nil) none "x" 0

/-- The div containing a two-text fragment followed by a text — the tree on
which an unchanged re-render still moves nodes. -/
def fragTree : VNode :=
  tDiv [VNode.mk .fragment none [] (VNodeList.ofList [tText "a", tText "b"]), tText "c"]

/-- A state with one mounted component path "0" owning slot array 0 that
holds a single state slot. -/
def hookSt : St :=
  { emptySt with
    hookArr := [("0", 0)]
    hookHeap := fun i => if i = 0 then [Hook.state (.num 1)] else []
    cursorMap := [("0", 1)] }

/-- The rerun condition of C5, following the claim text: the effect is
(re)enqueued when this is the first invocation at that slot, or deps is
not supplied, or the prior slot stored no dependency list (a state slot or
a null deps field), or the new deps are not shallow-equal to the prior
ones. -/
def effectRerunSpec (oldHook : Option Hook) (deps : Option (List JSVal)) : Bool :=
  match oldHook, deps with
  | none, _ => true
  | _, none => true
  | some (.state _), some _ => true
  | some (.effect none _ _), some _ => true
  | some (.effect (some old) _ _), some ds => !(shallowEqualsDeps ds (some (some old)))

/-- A state with one mounted component path "0" whose slot array 0 holds
one effect slot with deps [1] and a stored cleanup 9. -/
def effectSt : St :=
  { emptySt with
    hookArr := [("0", 0)]
    hookHeap := fun i => if i = 0 then [Hook.effect (some [.num 1]) (some 9) 4] else []
    cursorMap := [("0", 0)]
    compStack := ["0"] }

/-- The events one path contributes to the sweep trace: one cleanupRun per
effect slot holding a cleanup. -/
def slotCleanupEvents (path : String) (slots : List (Nat × Hook)) : List HookEvent :=
  slots.filterMap
    (fun ih =>
      match ih.2 with
      | Hook.effect _ (some c) _ => some (HookEvent.cleanupRun path ih.1 c)
      | _ => none)

/-- The cleanup events the unused-hook sweep is expected to produce: for
every hook-store entry whose path the current render did not visit, one
event per effect slot that holds a cleanup, in store order and slot
order. -/
def cleanupTraceSpec (st : St) : List HookEvent :=
  (st.hookArr.filter (fun pa => !(st.visited.contains pa.1))).flatMap
    (fun pa => slotCleanupEvents pa.1 ((st.hookHeap pa.2).enum))

/-- A cleanup-thunk environment that does not touch the hook store, the
visited set, the cursor map or the trace (it may freely change anything
else, e.g. enqueue renders). -/
def cleanupPreserving (env : HookEnv) : Prop :=
  ∀ c s, (env.runCleanup c s).hookArr = s.hookArr ∧
    (env.runCleanup c s).hookHeap = s.hookHeap ∧
    (env.runCleanup c s).cursorMap = s.cursorMap ∧
    (env.runCleanup c s).visited = s.visited ∧
    (env.runCleanup c s).hookTrace = s.hookTrace

/-- A state for the C7 witness: path "a" was visited, path "b" was not and
holds one state slot and two effect slots, one of them with cleanup 9. -/
def sweepSt : St :=
  { emptySt with
    hookArr := [("a", 0), ("b", 1)]
    hookHeap := fun i =>
      if i = 0 then [Hook.state (.num 1)]
      else if i = 1 then
        [Hook.state (.num 2), Hook.effect none (some 9) 4, Hook.effect none none 5]
      else []
    cursorMap := [("a", 1), ("b", 3)]
    visited := ["a"] }

/-- The trace events one queue entry is expected to contribute, computed
against a fixed state: nothing when the path has no slot array or the slot
is not an effect record; otherwise the stored cleanup event (if any)
followed by the effect event. -/
def entryEvents (st : St) (e : EffectEntry) : List HookEvent :=
  match alGet st.hookArr e.path with
  | none => []
  | some arrId =>
    match (st.hookHeap arrId).get? e.cursor with
    | some (Hook.effect _ cleanup eff) =>
      (match cleanup with
       | some c => [HookEvent.cleanupRun e.path e.cursor c]
       | none => []) ++ [HookEvent.effectRun e.path e.cursor eff]
    | _ => []

/-- The whole trace one flush is expected to append: the events of the
snapshotted queue, in FIFO order. -/
def flushTraceSpec (st : St) : List HookEvent :=
  st.effQueue.flatMap (entryEvents st)

/-- Effect and cleanup thunks that do not touch the hook store or the
trace while running (they may freely update state slots via setters in
real runs; reasoning about the flush trace assumes they leave the store
maps and arrays alone). -/
def effectPreserving (env : HookEnv) : Prop :=
  (∀ c s, (env.runCleanup c s).hookArr = s.hookArr ∧
    (env.runCleanup c s).hookHeap = s.hookHeap ∧
    (env.runCleanup c s).hookTrace = s.hookTrace) ∧
  (∀ e s, ((env.runEffect e s).1).hookArr = s.hookArr ∧
    ((env.runEffect e s).1).hookHeap = s.hookHeap ∧
    ((env.runEffect e s).1).hookTrace = s.hookTrace)

/-- Thunks that do not enqueue further effects. -/
def queuePreserving (env : HookEnv) : Prop :=
  (∀ c s, (env.runCleanup c s).effQueue = s.effQueue) ∧
  (∀ e s, ((env.runEffect e s).1).effQueue = s.effQueue)

/-- Distinct queue entries resolve to distinct slots (distinct array id or
distinct cursor) whenever both resolve at all.  This is the JS Map
invariant that distinct paths own distinct slot arrays. -/
def slotsDistinct (st : St) (q : List EffectEntry) : Prop :=
  ∀ e1 e2, e1 ∈ q → e2 ∈ q → e1 ≠ e2 →
    ∀ a1 a2, alGet st.hookArr e1.path = some a1 → alGet st.hookArr e2.path = some a2 →
      (a1, e1.cursor) ≠ (a2, e2.cursor)

/-- A state for the C6 witness: two pending entries on path "0", slots 0
and 1, slot 0 with stored cleanup 9 and effect 4, slot 1 with no cleanup
and effect 5. -/
def flushSt : St :=
  { emptySt with
    hookArr := [("0", 0)]
    hookHeap := fun i =>
      if i = 0 then [Hook.effect none (some 9) 4, Hook.effect none none 5] else []
    effQueue := [⟨"0", 0⟩, ⟨"0", 1⟩] }

/-- An environment whose effect thunk returns a callable cleanup tagged
with the effect id. -/
def taggingEnv : HookEnv :=
  { runEffect := fun e st => (st, some (e + 100)), runCleanup := fun _ st => st }

/-- Modelled from the spec: the pairing walk of reconcileChildren in the
claim's words.  Walking new descriptors left to right, a keyed descriptor
whose key is in the keyed map claims that old instance and deletes it from
the map so it cannot be reused; an unkeyed descriptor claims the next
unconsumed unkeyed old instance in original order; otherwise the
descriptor is paired with null.  Returns the pair list, the leftover
keyed map and the final unkeyed index. -/
def claimedPairs : List (String × Instance) → List Instance → Nat → List VNode →
    List (Option Instance × VNode) × List (String × Instance) × Nat
  | keyed, _, uidx, [] => ([], keyed, uidx)
  | keyed, unkeyed, uidx, n :: rest =>
    match n.key with
    | some k =>
      match alGet keyed k with
      | some old =>
        let r := claimedPairs (alDelete keyed k) unkeyed uidx rest
        ((some old, n) :: r.1, r.2)
      | none =>
        let r := claimedPairs keyed unkeyed uidx rest
        ((none, n) :: r.1, r.2)
    | none =>
      match unkeyed.get? uidx with
      | some old =>
        let r := claimedPairs keyed unkeyed (uidx + 1) rest
        ((some old, n) :: r.1, r.2)
      | none =>
        let r := claimedPairs keyed unkeyed uidx rest
        ((none, n) :: r.1, r.2)

/-- Sequential reconciliation of an explicit pick/descriptor pair list:
the shape of the reconcileChildren walk once the picks are fixed.  It
consumes fuel exactly like the loop of the reconciler block. -/
def rcFold (env : Env) (pd : Nat) : Nat → List (Option Instance × VNode) → Nat →
    List VNode → String → St → Option (List (Option Instance) × St)
  | 0 => fun _ _ _ _ _ => none
  | fuel + 1 => fun pairs i sibs path st =>
    match pairs with
    | [] => some ([], st)
    | (old, n) :: rest =>
      match reconcile env fuel pd old (some n)
          (createChildPath path n.key i (some n.ntype) sibs) st with
      | none => none
      | some r =>
        (rcFold env pd fuel rest (i + 1) sibs path r.2).map
          (fun r2 => (r.1 :: r2.1, r2.2))

/-- Remove a list of instances from a target, left to right. -/
def removeAll (st : St) (pd : Nat) (L : List Instance) : St :=
  L.foldl (fun st c => removeInstance st pd (some c)) st

/-- The old instances not claimed by any new descriptor: the leftover
keyed map entries followed by the unconsumed unkeyed tail. -/
def unclaimedOf (oldChildren : List (Option Instance)) (newChildren : List VNode) :
    List Instance :=
  ((claimedPairs (partitionChildren oldChildren).1 (partitionChildren oldChildren).2
      0 newChildren).2.1.map Prod.snd) ++
    (partitionChildren oldChildren).2.drop
      (claimedPairs (partitionChildren oldChildren).1 (partitionChildren oldChildren).2
        0 newChildren).2.2

/-- A hand-built keyed HOST instance owning node 5, for concrete
reconcileChildren scenarios. -/
def c3KeyedInst : Instance :=
  Instance.mk .HOST (some 5) (tKeyedDiv "a" []) .nil (some "a") "0.ka" 1

/-- One node step of insertInstance: skip when the node is already a
child of the target immediately before the anchor, otherwise move/insert
it before the anchor (append when the anchor is null). -/
def insStep (pd : Nat) (anchor : Option Nat) (st : St) (d : Nat) : St :=
  if st.parentOf d = some pd ∧ nextSiblingOf st d = anchor then st
  else
    match anchor with
    | some a => insertBeforeOp st pd d a
    | none => appendChildOp st pd d

/-- Modelled from the spec: every child of the walk is already in place —
its first concrete node is a child of the target immediately followed by
the current anchor (children without nodes are skipped). -/
def allInPlace (pd : Nat) (st : St) : List (Option Instance) → Option Nat → Prop
  | [], _ => True
  | c :: rest, anchor =>
    match getFirstDom c with
    | none => allInPlace pd st rest anchor
    | some fd =>
      st.parentOf fd = some pd ∧ nextSiblingOf st fd = anchor ∧
        allInPlace pd st rest (some fd)

/-- First render of the rotation scenario: three keyed divs mounted into
the empty root. -/
def c8First : Option (List (Option Instance) × St) :=
  reconcileChildren trivialEnv 10 0 []
    [tKeyedDiv "1" [], tKeyedDiv "2" [], tKeyedDiv "3" []] "0" emptySt

/-- Second render of the rotation scenario: the same keyed children
reordered to C, A, B. -/
def c8Second : Option (List (Option Instance) × St) :=
  c8First.bind (fun r1 => reconcileChildren trivialEnv 10 0 r1.1
    [tKeyedDiv "3" [], tKeyedDiv "1" [], tKeyedDiv "2" []] "0" r1.2)

/-- Does a mutation create a node? -/
def Mutation.isCreate : Mutation → Bool
  | .createEl _ _ => true
  | .createText _ _ => true
  | _ => false

/-- A two-child target: node 0 holds children 1 and 2. -/
def c8Wit : St := { emptySt with
  childListOf := fun i => if i = 0 then [1, 2] else []
  parentOf := fun i => if i = 1 ∨ i = 2 then some 0 else none }

/-- A HOST instance owning node 1. -/
def c8InstA : Instance := Instance.mk .HOST (some 1) (tDiv []) .nil none "0.c0" 10

/-- A HOST instance owning node 2. -/
def c8InstB : Instance := Instance.mk .HOST (some 2) (tDiv []) .nil none "0.c1" 11

/-- The instances of a child slot list, nulls skipped. -/
def instsOf : InstList → List Instance
  | .nil => []
  | .consNull t => instsOf t
  | .consInst c t => c :: instsOf t

mutual
/-- A host/text instance tree faithfully mounted on the render target
(cl, par, itx are the target's childListOf, parentOf and isText maps):
the instance key mirrors the descriptor key; a TEXT instance carries the
TEXT kind and a string nodeValue prop; a HOST instance carries the HOST
kind and — when its node is a live element — self-consistent attrs
(first lookup of every key yields that entry), well-formed unkeyed
children aligned slot by slot with the descriptor children, and a child
list holding exactly the children's concrete nodes in order, without
duplicates, each pointing back at the element.  FRAGMENT and COMPONENT
instances are not covered (the counterexample shows the fragment
placement churn). -/
def wfI (cl : Nat → List Nat) (par : Nat → Option Nat) (itx : Nat → Bool) (pd : Nat) :
    Instance → Bool
  | .mk kind dom node children key _ _ =>
    match node with
    | .mk ntype nkey attrs _ =>
      decide (key = nkey) &&
      match ntype with
      | .text =>
        decide (kind = Kind.TEXT) &&
        (match alGet attrs "nodeValue" with
         | some (.str _) => true
         | _ => false)
      | .host _ =>
        decide (kind = Kind.HOST) &&
        (match dom with
         | none => true
         | some d =>
           if itx d then true
           else
             attrs.all (fun kv => decide (alGet attrs kv.1 = some kv.2)) &&
             wfL cl par itx d children (match node with | .mk _ _ _ vch => vch.toList) &&
             decide (cl d = instListDomNodes children) &&
             decide ((cl d).Nodup) &&
             (instListDomNodes children).all (fun x => decide (par x = some d)))
      | .fragment => false
      | .component _ _ => false
/-- Child slots aligned with descriptor children: no null slots, every
slot unkeyed, its stored node the descriptor, and itself well formed. -/
def wfL (cl : Nat → List Nat) (par : Nat → Option Nat) (itx : Nat → Bool) (pd : Nat) :
    InstList → List VNode → Bool
  | .nil, [] => true
  | .consInst c t, v :: vs =>
    decide (c.node = v) && decide (c.key = none) && wfI cl par itx pd c &&
      wfL cl par itx pd t vs
  | _, _ => false
end

/-- Well-formedness over a state. -/
def wfInstSt (st : St) (pd : Nat) (i : Instance) : Bool :=
  wfI st.childListOf st.parentOf st.isText pd i

/-- reconcile maps a well-formed instance and its own descriptor to the
same instance and the untouched state. -/
def NoopReconcile (env : Env) (fuel : Nat) : Prop :=
  ∀ (pd : Nat) (i : Instance) (path : String) (st : St) (r : Option Instance × St),
    wfInstSt st pd i = true →
    reconcile env fuel pd (some i) (some i.node) path st = some r → r = (some i, st)

/-- update maps a well-formed instance and its own descriptor to the same
instance and the untouched state. -/
def NoopUpdate (env : Env) (fuel : Nat) : Prop :=
  ∀ (pd : Nat) (i : Instance) (path : String) (st : St) (r : Instance × St),
    wfInstSt st pd i = true →
    update env fuel pd i i.node path st = some r → r = (i, st)

/-- The C9 counterexample scenario: a div holding a two-text fragment and
a text sibling, rendered from scratch. -/
def c9St0 : St := { emptySt with rootNode := some fragTree }

/-- The fragment descriptor inside fragTree. -/
def c9Frag : VNode :=
  VNode.mk .fragment none [] (VNodeList.ofList [tText "a", tText "b"])

/-- The fragment instance the first render of fragTree mounts: two TEXT
children owning nodes 2 and 3. -/
def c9InstFrag : Instance :=
  .mk .FRAGMENT none c9Frag
    (.consInst (.mk .TEXT (some 2) (tText "a") .nil none "0.c0.c0" 0)
      (.consInst (.mk .TEXT (some 3) (tText "b") .nil none "0.c0.c1" 1) .nil))
    none "0.c0" 2

/-- The root instance the first render of fragTree mounts: a HOST div
owning node 1, holding the fragment instance and a TEXT owning node 4. -/
def c9InstRoot : Instance :=
  .mk .HOST (some 1) fragTree
    (.consInst c9InstFrag
      (.consInst (.mk .TEXT (some 4) (tText "c") .nil none "0.c1" 3) .nil))
    none "0" 4

/-- The mounted state the first render of fragTree produces, written out
literally (div node 1 under the container, text nodes 2 "a", 3 "b", 4 "c"
in order under the div, root instance c9InstRoot) with a fresh mutation
log, so that the log of a re-render is exactly the delta it emits. -/
def c9MountedSt : St := { emptySt with
  nextId := 5, nextIid := 5
  parentOf := fun d => if d = 1 then some 0 else if d = 2 ∨ d = 3 ∨ d = 4 then some 1 else none
  childListOf := fun d => if d = 0 then [1] else if d = 1 then [2, 3, 4] else []
  tagOf := fun d => if d = 1 then "div" else ""
  isText := fun d => decide (d = 2) || decide (d = 3) || decide (d = 4)
  textValOf := fun d => if d = 2 then "a" else if d = 3 then "b" else if d = 4 then "c" else ""
  rootNode := some fragTree
  rootInstance := some c9InstRoot }

/-- The root instance mounting a div with two texts produces: a HOST div
owning node 1 with TEXT children owning nodes 2 and 3. -/
def c9MidInst : Instance :=
  .mk .HOST (some 1) (tDiv [tText "a", tText "b"])
    (.consInst (.mk .TEXT (some 2) (tText "a") .nil none "0.c0" 0)
      (.consInst (.mk .TEXT (some 3) (tText "b") .nil none "0.c1" 1) .nil))
    none "0" 2

/-- The mounted state of the two-text div, written out literally: the
well-formed host/text scenario for the amended no-op theorem. -/
def c9Mid : St := { emptySt with
  nextId := 4, nextIid := 3
  parentOf := fun d => if d = 1 then some 0 else if d = 2 ∨ d = 3 then some 1 else none
  childListOf := fun d => if d = 0 then [1] else if d = 1 then [2, 3] else []
  tagOf := fun d => if d = 1 then "div" else ""
  isText := fun d => decide (d = 2) || decide (d = 3)
  textValOf := fun d => if d = 2 then "a" else if d = 3 then "b" else ""
  rootNode := some (tDiv [tText "a", tText "b"])
  rootInstance := some c9MidInst }

/-! # Theorems -/

theorem countSameType_eq_countP (siblings : List VNode) (t : NodeType) :
    ∀ n, countSameType siblings (some t) n =
      (siblings.take n).countP (fun s => s.ntype == t)
  | 0 => by simp [countSameType]
  | n + 1 => by
    rw [countSameType, countSameType_eq_countP siblings t n, List.take_succ,
      List.countP_append]
    rcases h : siblings[n]? with _ | s
    · simp [sibTypeMatches, List.get?_eq_getElem?, h]
    · by_cases ht : s.ntype = t
      · simp [sibTypeMatches, List.get?_eq_getElem?, h, List.countP_cons, ht]
      · simp only [sibTypeMatches, List.get?_eq_getElem?, h, Option.toList_some,
          List.countP_cons, List.countP_nil, decide_eq_true_eq]
        have : ¬t = s.ntype := fun hh => ht hh.symm
        simp [this, ht]

theorem strTok (p a b c x : String) (h : a ++ b = c) :
    p ++ a ++ (b ++ x) = p ++ c ++ x := by
  rw [← String.append_assoc (p ++ a) b x, String.append_assoc p a b, h]

/-- C2 (amended): in the path generator of src/unnamed/part_003, a keyed
call returns parent.k(key) ignoring index, type and siblings; an unkeyed
call with a component function type returns parent.i(n) where n counts the
earlier siblings of that exact function reference; an unkeyed call with a
non-component type returns parent.c(index).  (The packages/react variant
deviates on the component case; see the counterexample.) -/
theorem createChildPath_spec (p : String) (index : Nat) (nt : Option NodeType)
    (siblings : List VNode) :
    (∀ k, createChildPath p (some k) index nt siblings = p ++ ".k" ++ k) ∧
    (∀ cid name, nt = some (NodeType.component cid name) →
      createChildPath p none index nt siblings =
        p ++ ".i" ++ toString ((siblings.take index).countP
          (fun s => s.ntype == NodeType.component cid name))) ∧
    (isComponentType nt = false →
      createChildPath p none index nt siblings = p ++ ".c" ++ toString index) := by
  refine ⟨fun k => rfl, ?_, ?_⟩
  · intro cid name hnt
    subst hnt
    show p ++ "." ++ ("i" ++ toString
      (countSameType siblings (some (NodeType.component cid name)) index)) = _
    rw [countSameType_eq_countP]
    exact strTok p "." "i" ".i" _ (by decide)
  · intro hnc
    rcases nt with _ | t
    · exact strTok p "." "c" ".c" (toString index) (by decide)
    · cases t with
      | text => exact strTok p "." "c" ".c" (toString index) (by decide)
      | fragment => exact strTok p "." "c" ".c" (toString index) (by decide)
      | host tag => exact strTok p "." "c" ".c" (toString index) (by decide)
      | component cid name => simp [isComponentType] at hnc

/-- C2 witness: concrete keyed, component and host calls of the part_003
path generator. -/
theorem createChildPath_spec_witness :
    createChildPath "0" none 2 (some (NodeType.component 5 "F"))
      [VNode.mk (NodeType.component 5 "F") none [] .nil,
       VNode.mk (NodeType.host "div") none [] .nil,
       VNode.mk (NodeType.component 5 "F") none [] .nil] = "0.i1" ∧
    createChildPath "0" (some "a") 3 none [] = "0.ka" ∧
    createChildPath "0" none 2 (some (NodeType.host "div")) [] = "0.c2" := by
  refine ⟨?_, ?_, ?_⟩
  · rw [(createChildPath_spec "0" 2 (some (NodeType.component 5 "F")) _).2.1 5 "F" rfl]
    rfl
  · exact (createChildPath_spec "0" 3 none []).1 "a"
  · exact (createChildPath_spec "0" 2 (some (NodeType.host "div")) []).2.2 (by rfl)

/-- C2 counterexample: the packages/react/src/core/elements.ts variant
emits the function name, not the token ".i", for an unkeyed component
child — the claimed ".i0" is not produced. -/
theorem createChildPathPkg_counterexample :
    createChildPathPkg "p" none 0 (some (NodeType.component 0 "Foo"))
      [VNode.mk (NodeType.component 0 "Foo") none [] .nil] = "p.Foo0" ∧
    ("p.Foo0" : String) ≠ "p.i0" := ⟨rfl, by decide⟩

mutual

theorem instFirstDom_eq : ∀ i : Instance, instFirstDom i = (instDomNodes i).head?
  | .mk kind dom node children key path iid => by
    show (if kind = Kind.HOST ∨ kind = Kind.TEXT then dom else instListFirstDom children) =
      (if kind = Kind.HOST ∨ kind = Kind.TEXT then
          (match dom with | some d => [d] | none => ([] : List Nat))
        else instListDomNodes children).head?
    by_cases h : kind = Kind.HOST ∨ kind = Kind.TEXT
    · simp only [if_pos h]
      cases dom <;> rfl
    · simp only [if_neg h]
      exact instListFirstDom_eq children

theorem instListFirstDom_eq : ∀ l : InstList, instListFirstDom l = (instListDomNodes l).head?
  | .nil => rfl
  | .consNull t => by
    show instListFirstDom t = (instListDomNodes t).head?
    exact instListFirstDom_eq t
  | .consInst h t => by
    show (match instFirstDom h with
      | some d => some d
      | none => instListFirstDom t) = (instDomNodes h ++ instListDomNodes t).head?
    rw [instFirstDom_eq h, instListFirstDom_eq t]
    rcases hh : instDomNodes h with _ | ⟨x, xs⟩ <;> simp [hh]

end

/-- C10 (amended): for the dom helpers of src/unnamed/part_001, on every
instance — null, TEXT, HOST, FRAGMENT or COMPONENT, with arbitrarily
nested or null children — getFirstDom is the head of getDomNodes (null
exactly when the node list is empty).  The packages/react/src/core/dom.ts
variant violates this; see the counterexample. -/
theorem getFirstDom_spec (inst : Option Instance) :
    getFirstDom inst = (getDomNodes inst).head? := by
  cases inst with
  | none => rfl
  | some i => exact instFirstDom_eq i

/-- C10 counterexample: on a FRAGMENT wrapping a COMPONENT wrapping a HOST
that owns node 7, the packages getFirstDom returns null although the
packages getDomNodes starts with node 7. -/
theorem getFirstDomPkg_counterexample :
    getFirstDomPkg (some cexFragInst) = none ∧
    (getDomNodesPkg (some cexFragInst)).head? = some 7 := ⟨rfl, rfl⟩

/-- C4: a useState setter computes the next value (plain value, or updater
applied to the stored slot value); when it is Object.is-identical to the
stored value the whole state is left untouched and no render pass is
requested; when it differs, exactly that slot of that array is overwritten
in place and exactly one render pass is requested; and in every case the
setter performs no reconciliation — no DOM operation, no mutation log
entry, no change to the instance tree. -/
theorem setState_spec (setter : Setter) (next : JSVal ⊕ (JSVal → JSVal)) (st : St) :
    (∀ hv, slotAsJS ((st.hookHeap setter.arrId).get? setter.cursor) = some hv →
      (match next with | .inl v => v | .inr f => f hv) = hv →
      setState setter next st = st) ∧
    (∀ hv, slotAsJS ((st.hookHeap setter.arrId).get? setter.cursor) = some hv →
      (match next with | .inl v => v | .inr f => f hv) ≠ hv →
      (setState setter next st).hookHeap setter.arrId =
          (st.hookHeap setter.arrId).set setter.cursor
            (Hook.state (match next with | .inl v => v | .inr f => f hv)) ∧
        (setState setter next st).renderRequests = st.renderRequests + 1 ∧
        (∀ a, a ≠ setter.arrId → (setState setter next st).hookHeap a = st.hookHeap a) ∧
        (setState setter next st).effQueue = st.effQueue) ∧
    ((setState setter next st).log = st.log ∧
      (setState setter next st).rootInstance = st.rootInstance ∧
      (∀ i, (setState setter next st).childListOf i = st.childListOf i) ∧
      (∀ i, (setState setter next st).parentOf i = st.parentOf i)) := by
  refine ⟨?_, ?_, ?_⟩
  · intro hv h heq
    simp only [setState]
    rw [h]
    rcases next with v | f <;>
      simp_all [Option.getD, enqueueRender, heapSet]
  · intro hv h hne
    simp only [setState]
    rw [h]
    rcases next with v | f <;>
      simp_all [Option.getD, enqueueRender, heapSet, Ne.symm hne]
  · simp only [setState]
    split <;> simp [enqueueRender, heapSet]

/-- C5: useEffect appends (path, cursor) to the pending-effects queue and
requests an effect flush exactly when the rerun condition holds — first
invocation at the slot, deps not supplied, no stored dependency list, or
shallow inequality with the stored deps — and in all cases the slot
afterwards stores the new dependency list and the new effect thunk while
carrying the previously stored cleanup forward unchanged. -/
theorem useEffect_spec (effect : Nat) (deps : Option (List JSVal)) (st : St)
    (hcur : currentCursor st ≤ (st.hookHeap (currentHooksId st)).length) :
    ((useEffect effect deps st).effQueue =
      if effectRerunSpec ((st.hookHeap (currentHooksId st)).get? (currentCursor st)) deps
      then st.effQueue ++ [⟨currentPath st, currentCursor st⟩]
      else st.effQueue) ∧
    ((useEffect effect deps st).flushRequests =
      if effectRerunSpec ((st.hookHeap (currentHooksId st)).get? (currentCursor st)) deps
      then st.flushRequests + 1
      else st.flushRequests) ∧
    ((useEffect effect deps st).hookHeap (currentHooksId st)).get? (currentCursor st) =
      some (Hook.effect deps
        (oldCleanup ((st.hookHeap (currentHooksId st)).get? (currentCursor st))) effect) := by
  have hcond :
      (hookFalsy ((st.hookHeap (currentHooksId st)).get? (currentCursor st)) ||
        deps.isNone ||
        oldDepsIsNull ((st.hookHeap (currentHooksId st)).get? (currentCursor st)) ||
        !(shallowEqualsDeps (deps.getD [])
          (oldDepsVal ((st.hookHeap (currentHooksId st)).get? (currentCursor st))))) =
      effectRerunSpec ((st.hookHeap (currentHooksId st)).get? (currentCursor st)) deps := by
    rcases hslot : (st.hookHeap (currentHooksId st)).get? (currentCursor st) with _ | hk
    · rcases deps with _ | ds <;> simp [hookFalsy, effectRerunSpec]
    · rcases hk with v | ⟨od, oc, oe⟩
      · rcases deps with _ | ds <;>
          simp [hookFalsy, oldDepsIsNull, oldDepsVal, shallowEqualsDeps, effectRerunSpec]
      · rcases deps with _ | ds
        · simp [hookFalsy, oldDepsIsNull, effectRerunSpec]
        · rcases od with _ | ol <;>
            simp [hookFalsy, oldDepsIsNull, oldDepsVal, shallowEqualsDeps, effectRerunSpec]
  refine ⟨?_, ?_, ?_⟩
  · simp only [useEffect, enqueueFlushEffects]
    rw [hcond]
    split <;> simp [heapSet]
  · simp only [useEffect, enqueueFlushEffects]
    rw [hcond]
    split <;> simp [heapSet]
  · have hheap : (useEffect effect deps st).hookHeap (currentHooksId st) =
        (if currentCursor st ≥ (st.hookHeap (currentHooksId st)).length
         then st.hookHeap (currentHooksId st) ++
           [Hook.effect deps
             (oldCleanup ((st.hookHeap (currentHooksId st)).get? (currentCursor st))) effect]
         else (st.hookHeap (currentHooksId st)).set (currentCursor st)
           (Hook.effect deps
             (oldCleanup ((st.hookHeap (currentHooksId st)).get? (currentCursor st))) effect)) := by
      simp only [useEffect, enqueueFlushEffects, heapSet, apply_ite St.hookHeap, ite_self]
      simp
    rw [hheap]
    rcases Nat.lt_or_ge (currentCursor st) (st.hookHeap (currentHooksId st)).length with hlt | hge
    · rw [if_neg (by omega : ¬ currentCursor st ≥ (st.hookHeap (currentHooksId st)).length)]
      rw [List.get?_eq_getElem?]
      exact List.getElem?_set_eq_of_lt _ hlt
    · have heq : currentCursor st = (st.hookHeap (currentHooksId st)).length := by omega
      rw [if_pos (by omega : currentCursor st ≥ (st.hookHeap (currentHooksId st)).length), heq]
      rw [List.get?_eq_getElem?]
      exact List.getElem?_concat_length _ _

/-- C5 witness: on a concrete effect slot with stored deps [1] and
cleanup 9, equal deps do not enqueue, changed deps enqueue once, and in
both cases the slot stores the new thunk and carries cleanup 9. -/
theorem useEffect_spec_witness :
    (useEffect 5 (some [.num 1]) effectSt).effQueue = [] ∧
    (useEffect 5 (some [.num 2]) effectSt).effQueue = [⟨"0", 0⟩] ∧
    ((useEffect 5 (some [.num 2]) effectSt).hookHeap 0).get? 0 =
      some (Hook.effect (some [.num 2]) (some 9) 5) := by
  refine ⟨?_, ?_, ?_⟩
  · have h := (useEffect_spec 5 (some [.num 1]) effectSt (by decide)).1
    rw [h]
    rfl
  · have h := (useEffect_spec 5 (some [.num 2]) effectSt (by decide)).1
    rw [h]
    rfl
  · exact (useEffect_spec 5 (some [.num 2]) effectSt (by decide)).2.2

/-- C4 witness: on a concrete slot holding 1, setting 1 is a no-op and
setting 2 overwrites the slot and requests one render. -/
theorem setState_spec_witness :
    setState ⟨0, 0⟩ (Sum.inl (.num 1)) hookSt = hookSt ∧
    (setState ⟨0, 0⟩ (Sum.inl (.num 2)) hookSt).hookHeap 0 = [Hook.state (.num 2)] ∧
    (setState ⟨0, 0⟩ (Sum.inl (.num 2)) hookSt).renderRequests = 1 := by
  refine ⟨?_, ?_, ?_⟩
  · exact (setState_spec ⟨0, 0⟩ (Sum.inl (.num 1)) hookSt).1 (.num 1) rfl rfl
  · have h := ((setState_spec ⟨0, 0⟩ (Sum.inl (.num 2)) hookSt).2.1 (.num 1) rfl
      (by decide)).1
    rw [h]
    rfl
  · have h := ((setState_spec ⟨0, 0⟩ (Sum.inl (.num 2)) hookSt).2.1 (.num 1) rfl
      (by decide)).2.1
    rw [h]
    rfl

theorem alGet_eq_none_iff {α : Type} (m : List (String × α)) (p : String) :
    alGet m p = none ↔ p ∉ m.map Prod.fst := by
  induction m with
  | nil => simp [alGet]
  | cons kv t ih =>
    rcases kv with ⟨k, v⟩
    by_cases h : k = p
    · subst h
      simp [alGet]
    · simp only [alGet, if_neg h, List.map_cons, List.mem_cons, ih]
      have hpk : ¬ p = k := fun hh => h hh.symm
      simp [hpk]

theorem alGet_alDelete_ne {α : Type} (m : List (String × α)) (p q : String) (h : p ≠ q) :
    alGet (alDelete m q) p = alGet m p := by
  induction m with
  | nil => rfl
  | cons kv t ih =>
    rcases kv with ⟨k, v⟩
    by_cases hk : k = q
    · subst hk
      have hkp : ¬ k = p := fun hh => h hh.symm
      simp [alDelete, alGet, hkp]
    · by_cases hp : k = p
      · subst hp
        simp [alDelete, alGet, hk]
      · simp [alDelete, alGet, hk, hp, ih]

theorem alGet_alDelete_self {α : Type} (m : List (String × α)) (p : String)
    (hm : (m.map Prod.fst).Nodup) : alGet (alDelete m p) p = none := by
  induction m with
  | nil => rfl
  | cons kv t ih =>
    rcases kv with ⟨k, v⟩
    simp only [List.map_cons, List.nodup_cons] at hm
    by_cases hk : k = p
    · subst hk
      simp only [alDelete, if_pos rfl]
      rw [alGet_eq_none_iff]
      exact hm.1
    · simp [alDelete, alGet, hk, ih hm.2]

theorem alDelete_keys_subset {α : Type} (m : List (String × α)) (q : String) :
    ∀ p, p ∈ (alDelete m q).map Prod.fst → p ∈ m.map Prod.fst := by
  induction m with
  | nil => simp [alDelete]
  | cons kv t ih =>
    rcases kv with ⟨k, v⟩
    intro p hp
    by_cases hk : k = q
    · simp only [alDelete, if_pos hk] at hp
      simp [hp]
    · simp only [alDelete, if_neg hk, List.map_cons, List.mem_cons] at hp
      rcases hp with hp | hp
      · simp [hp]
      · simp [ih p hp]

theorem alDelete_nodup {α : Type} (m : List (String × α)) (q : String)
    (hm : (m.map Prod.fst).Nodup) : ((alDelete m q).map Prod.fst).Nodup := by
  induction m with
  | nil => simpa [alDelete] using hm
  | cons kv t ih =>
    rcases kv with ⟨k, v⟩
    simp only [List.map_cons, List.nodup_cons] at hm
    by_cases hk : k = q
    · simp [alDelete, hk, hm.2]
    · simp only [alDelete, if_neg hk, List.map_cons, List.nodup_cons]
      exact ⟨fun hmem => hm.1 (alDelete_keys_subset t q k hmem), ih hm.2⟩

theorem alGet_none_alDelete {α : Type} (m : List (String × α)) (p q : String)
    (h : alGet m p = none) : alGet (alDelete m q) p = none := by
  induction m with
  | nil => rfl
  | cons kv t ih =>
    rcases kv with ⟨k, v⟩
    have hk1 : ¬ k = p := by
      intro hh
      rw [alGet, if_pos hh] at h
      cases h
    rw [alGet, if_neg hk1] at h
    by_cases hk : k = q
    · simpa [alDelete, hk] using h
    · simp [alDelete, alGet, hk, hk1, ih h]

theorem foldl_alDelete_none {α : Type} (L : List String) :
    ∀ (m : List (String × α)) (p : String), alGet m p = none →
      alGet (L.foldl (fun mm q => alDelete mm q) m) p = none := by
  induction L with
  | nil => intro m p h; simpa using h
  | cons q L' ih =>
    intro m p h
    exact ih (alDelete m q) p (alGet_none_alDelete m p q h)

theorem foldl_alDelete_mem {α : Type} (L : List String) :
    ∀ (m : List (String × α)) (p : String), ((m.map Prod.fst).Nodup) → p ∈ L →
      alGet (L.foldl (fun mm q => alDelete mm q) m) p = none := by
  induction L with
  | nil => simp
  | cons q L' ih =>
    intro m p hm hp
    simp only [List.foldl_cons]
    rcases List.mem_cons.mp hp with hpq | hp'
    · subst hpq
      exact foldl_alDelete_none L' (alDelete m p) p (alGet_alDelete_self m p hm)
    · exact ih (alDelete m q) p (alDelete_nodup m q hm) hp'

theorem foldl_alDelete_keys_subset {α : Type} (L : List String) :
    ∀ (m : List (String × α)) (p : String),
      p ∈ ((L.foldl (fun mm q => alDelete mm q) m).map Prod.fst) → p ∈ m.map Prod.fst := by
  induction L with
  | nil => simp
  | cons q L' ih =>
    intro m p hp
    exact alDelete_keys_subset m q p (ih (alDelete m q) p hp)

theorem runSlotCleanups_spec (env : HookEnv) (henv : cleanupPreserving env) (path : String) :
    ∀ (slots : List (Nat × Hook)) (s : St),
      (runSlotCleanups env path slots s).hookArr = s.hookArr ∧
      (runSlotCleanups env path slots s).hookHeap = s.hookHeap ∧
      (runSlotCleanups env path slots s).cursorMap = s.cursorMap ∧
      (runSlotCleanups env path slots s).visited = s.visited ∧
      (runSlotCleanups env path slots s).hookTrace =
        s.hookTrace ++ slotCleanupEvents path slots := by
  intro slots
  induction slots with
  | nil => intro s; simp [runSlotCleanups, slotCleanupEvents]
  | cons ih t iht =>
    intro s
    rcases ih with ⟨idx, hk⟩
    rcases hk with v | ⟨d, c, e⟩
    · simpa [runSlotCleanups, slotCleanupEvents, List.foldl_cons] using iht s
    · rcases c with _ | c
      · simpa [runSlotCleanups, slotCleanupEvents, List.foldl_cons] using iht s
      · have hstep := henv c { s with hookTrace := s.hookTrace ++ [HookEvent.cleanupRun path idx c] }
        have hrec := iht (env.runCleanup c { s with hookTrace := s.hookTrace ++ [HookEvent.cleanupRun path idx c] })
        simp only [runSlotCleanups, List.foldl_cons] at hrec ⊢
        refine ⟨?_, ?_, ?_, ?_, ?_⟩
        · rw [hrec.1, hstep.1]
        · rw [hrec.2.1, hstep.2.1]
        · rw [hrec.2.2.1, hstep.2.2.1]
        · rw [hrec.2.2.2.1, hstep.2.2.2.1]
        · rw [hrec.2.2.2.2, hstep.2.2.2.2]
          simp [slotCleanupEvents]

theorem cleanupFold_spec (env : HookEnv) (henv : cleanupPreserving env) :
    ∀ (entries : List (String × Nat)) (s : St) (ps : List String),
      (entries.foldl (cleanupStep env) (s, ps)).1.hookArr = s.hookArr ∧
      (entries.foldl (cleanupStep env) (s, ps)).1.hookHeap = s.hookHeap ∧
      (entries.foldl (cleanupStep env) (s, ps)).1.cursorMap = s.cursorMap ∧
      (entries.foldl (cleanupStep env) (s, ps)).1.visited = s.visited ∧
      (entries.foldl (cleanupStep env) (s, ps)).2 =
        ps ++ (entries.filter (fun pa => !(s.visited.contains pa.1))).map Prod.fst ∧
      (entries.foldl (cleanupStep env) (s, ps)).1.hookTrace =
        s.hookTrace ++ (entries.filter (fun pa => !(s.visited.contains pa.1))).flatMap
          (fun pa => slotCleanupEvents pa.1 ((s.hookHeap pa.2).enum)) := by
  intro entries
  induction entries with
  | nil => intro s ps; simp
  | cons pa t iht =>
    intro s ps
    rcases hv : s.visited.contains pa.1 with _ | _
    · -- not visited: run the cleanups and collect pa.1
      have hq : (!s.visited.contains pa.1) = true := by rw [hv]; rfl
      have hstep : cleanupStep env (s, ps) pa =
          (runSlotCleanups env pa.1 ((s.hookHeap pa.2).enum) s, ps ++ [pa.1]) := by
        simp only [cleanupStep, hv]
        simp
      have hfc : (pa :: t).filter (fun pa => !s.visited.contains pa.1) =
          pa :: t.filter (fun pa => !s.visited.contains pa.1) := by
        simp only [List.filter_cons]
        rw [hq]
        simp
      have hrun := runSlotCleanups_spec env henv pa.1 ((s.hookHeap pa.2).enum) s
      have hrec := iht (runSlotCleanups env pa.1 ((s.hookHeap pa.2).enum) s) (ps ++ [pa.1])
      rw [hrun.1, hrun.2.1, hrun.2.2.1, hrun.2.2.2.1, hrun.2.2.2.2] at hrec
      rw [List.foldl_cons, hstep, hfc]
      refine ⟨hrec.1, hrec.2.1, hrec.2.2.1, hrec.2.2.2.1, ?_, ?_⟩
      · rw [hrec.2.2.2.2.1]
        simp
      · rw [hrec.2.2.2.2.2]
        simp [slotCleanupEvents]
    · -- visited: skip
      have hstep : cleanupStep env (s, ps) pa = (s, ps) := by
        simp only [cleanupStep, hv]
        simp
      have hfc : (pa :: t).filter (fun pa => !s.visited.contains pa.1) =
          t.filter (fun pa => !s.visited.contains pa.1) := by
        have hq : (!s.visited.contains pa.1) = false := by rw [hv]; rfl
        simp only [List.filter_cons]
        rw [hq]
        simp
      rw [List.foldl_cons, hstep, hfc]
      exact iht s ps

/-- C7: after a completed render pass, the sweep runs on hook-store paths
not visited by that pass — every effect slot cleanup at each such path is
invoked exactly once (the trace gains exactly the predicted event list),
the path is deleted from both the slot-list map and the cursor map, every
path remaining afterwards was visited, and every completed render pass
ends in exactly this sweep. -/
theorem cleanupUnusedHooks_spec :
    (∀ (env : HookEnv) (st : St), cleanupPreserving env →
      (st.hookArr.map Prod.fst).Nodup →
      (st.cursorMap.map Prod.fst).Nodup →
      ((cleanupUnusedHooks env st).hookTrace = st.hookTrace ++ cleanupTraceSpec st) ∧
      (∀ p, p ∈ st.hookArr.map Prod.fst → st.visited.contains p = false →
        alGet (cleanupUnusedHooks env st).hookArr p = none ∧
        alGet (cleanupUnusedHooks env st).cursorMap p = none) ∧
      (∀ p, p ∈ (cleanupUnusedHooks env st).hookArr.map Prod.fst →
        st.visited.contains p = true)) ∧
    (∀ (env : Env) (fuel : Nat) (st st' : St),
      st.rootContainer.isSome → st.rootNode.isSome →
      render env fuel st = some st' →
      ∃ stMid, st' = cleanupUnusedHooks env.hook stMid) := by
  constructor
  · intro env st henv hndA hndC
    have hfold := cleanupFold_spec env henv st.hookArr st []
    have hremove :
        (st.hookArr.foldl (cleanupStep env) (st, [])).2 =
          (st.hookArr.filter (fun pa => !(st.visited.contains pa.1))).map Prod.fst := by
      rw [hfold.2.2.2.2.1]
      simp
    refine ⟨?_, ?_, ?_⟩
    · show (st.hookArr.foldl (cleanupStep env) (st, [])).1.hookTrace = _
      rw [hfold.2.2.2.2.2]
      rfl
    · intro p hp hv
      constructor
      · show alGet ((st.hookArr.foldl (cleanupStep env) (st, [])).2.foldl
          (fun m q => alDelete m q) (st.hookArr.foldl (cleanupStep env) (st, [])).1.hookArr) p = none
        rw [hremove, hfold.1]
        refine foldl_alDelete_mem _ _ _ hndA ?_
        rcases List.mem_map.mp hp with ⟨pa, hpa, hfst⟩
        exact List.mem_map.mpr ⟨pa, List.mem_filter.mpr ⟨hpa, by
          simp only [hfst]
          simpa using hv⟩, hfst⟩
      · show alGet ((st.hookArr.foldl (cleanupStep env) (st, [])).2.foldl
          (fun m q => alDelete m q) (st.hookArr.foldl (cleanupStep env) (st, [])).1.cursorMap) p = none
        rw [hremove, hfold.2.2.1]
        by_cases hpc : p ∈ st.cursorMap.map Prod.fst
        · refine foldl_alDelete_mem _ _ _ hndC ?_
          rcases List.mem_map.mp hp with ⟨pa, hpa, hfst⟩
          exact List.mem_map.mpr ⟨pa, List.mem_filter.mpr ⟨hpa, by
            simp only [hfst]
            simpa using hv⟩, hfst⟩
        · exact foldl_alDelete_none _ _ _ ((alGet_eq_none_iff _ _).mpr hpc)
    · intro p hp
      by_cases hv : st.visited.contains p
      · exact hv
      · exfalso
        have hp0 : p ∈ ((st.hookArr.foldl (cleanupStep env) (st, [])).1.hookArr).map Prod.fst := by
          have := foldl_alDelete_keys_subset
            ((st.hookArr.foldl (cleanupStep env) (st, [])).2)
            ((st.hookArr.foldl (cleanupStep env) (st, [])).1.hookArr) p hp
          exact this
        rw [hfold.1] at hp0
        have hdel :
            alGet ((st.hookArr.foldl (cleanupStep env) (st, [])).2.foldl
              (fun m q => alDelete m q)
              (st.hookArr.foldl (cleanupStep env) (st, [])).1.hookArr) p = none := by
          rw [hremove, hfold.1]
          refine foldl_alDelete_mem _ _ _ hndA ?_
          rcases List.mem_map.mp hp0 with ⟨pa, hpa, hfst⟩
          exact List.mem_map.mpr ⟨pa, List.mem_filter.mpr ⟨hpa, by
            simp only [hfst]
            simpa using hv⟩, hfst⟩
        have := (alGet_eq_none_iff _ p).mp hdel
        exact this hp
  · intro env fuel st st' hc hn hr
    rcases hco : st.rootContainer with _ | c
    · rw [hco] at hc
      cases hc
    rcases hno : st.rootNode with _ | nd
    · rw [hno] at hn
      cases hn
    simp only [render, hco, hno] at hr
    rcases Option.map_eq_some'.mp hr with ⟨r, _, hr2⟩
    exact ⟨_, hr2.symm⟩

/-- C7 witness: on a concrete store where path "a" was visited and path
"b" (one state slot, an effect slot with cleanup 9, an effect slot with no
cleanup) was not, the sweep runs exactly cleanup 9 once, deletes the "b"
entries, and keeps only the visited "a". -/
theorem cleanupUnusedHooks_spec_witness :
    (cleanupUnusedHooks trivialEnv.hook sweepSt).hookTrace =
      [HookEvent.cleanupRun "b" 1 9] ∧
    alGet (cleanupUnusedHooks trivialEnv.hook sweepSt).hookArr "b" = none ∧
    alGet (cleanupUnusedHooks trivialEnv.hook sweepSt).cursorMap "b" = none ∧
    (∃ st', render trivialEnv 6 { emptySt with rootNode := some (tText "x") } = some st' ∧
      ∃ stMid, st' = cleanupUnusedHooks trivialEnv.hook stMid) := by
  have henv : cleanupPreserving trivialEnv.hook := fun c s => ⟨rfl, rfl, rfl, rfl, rfl⟩
  have h := cleanupUnusedHooks_spec.1 trivialEnv.hook sweepSt henv (by decide) (by decide)
  have hb := h.2.1 "b" (by decide) (by decide)
  refine ⟨?_, hb.1, hb.2, ?_⟩
  · rw [h.1]
    rfl
  · have hsome : ∃ st', render trivialEnv 6 { emptySt with rootNode := some (tText "x") } = some st' :=
      ⟨_, rfl⟩
    rcases hsome with ⟨st', hst'⟩
    exact ⟨st', hst', cleanupUnusedHooks_spec.2 trivialEnv 6 _ st' (by rfl) (by rfl) hst'⟩

theorem flatMap_congr_mem {α β : Type} (l : List α) (f g : α → List β)
    (h : ∀ x ∈ l, f x = g x) : l.flatMap f = l.flatMap g := by
  induction l with
  | nil => rfl
  | cons a t ih =>
    simp only [List.flatMap_cons]
    rw [h a (by simp), ih (fun x hx => h x (by simp [hx]))]

theorem flushStep_facts (env : HookEnv) (henv : effectPreserving env) (s : St) (e : EffectEntry) :
    (flushStep env s e).hookArr = s.hookArr ∧
    (flushStep env s e).hookTrace = s.hookTrace ++ entryEvents s e ∧
    (∀ a2 c2, (∀ a1, alGet s.hookArr e.path = some a1 → (a1, e.cursor) ≠ (a2, c2)) →
      ((flushStep env s e).hookHeap a2).get? c2 = (s.hookHeap a2).get? c2) ∧
    (∀ arrId d cl eff, alGet s.hookArr e.path = some arrId →
      (s.hookHeap arrId).get? e.cursor = some (Hook.effect d cl eff) →
      ∃ runSt, ((flushStep env s e).hookHeap arrId).get? e.cursor =
        some (Hook.effect d (env.runEffect eff runSt).2 eff)) := by
  rcases harr : alGet s.hookArr e.path with _ | arrId
  · refine ⟨?_, ?_, ?_, ?_⟩
    · simp only [flushStep, harr]
    · simp only [flushStep, entryEvents, harr]
      simp
    · intro a2 c2 _
      simp only [flushStep, harr]
    · intro arrId d cl eff harr2 _
      cases harr2
  · rcases hslot : (s.hookHeap arrId).get? e.cursor with _ | hk
    · refine ⟨?_, ?_, ?_, ?_⟩
      · simp only [flushStep, harr, hslot]
      · simp only [flushStep, entryEvents, harr, hslot]
        simp
      · intro a2 c2 _
        simp only [flushStep, harr, hslot]
      · intro arrId2 d cl eff harr2 hslot2
        obtain rfl : arrId = arrId2 := Option.some.inj harr2
        rw [hslot] at hslot2
        cases hslot2
    · rcases hk with v | ⟨d, cl, eff⟩
      · refine ⟨?_, ?_, ?_, ?_⟩
        · simp only [flushStep, harr, hslot]
        · simp only [flushStep, entryEvents, harr, hslot]
          simp
        · intro a2 c2 _
          simp only [flushStep, harr, hslot]
        · intro arrId2 d2 cl2 eff2 harr2 hslot2
          obtain rfl : arrId = arrId2 := Option.some.inj harr2
          rw [hslot] at hslot2
          simp at hslot2
      · -- effect slot: the cleanup (if any) runs, the thunk runs, the slot
        -- cleanup is replaced by the thunk result
        have hcl : ∀ (stA : St),
            (match cl with
              | some c => env.runCleanup c
                  { stA with hookTrace := stA.hookTrace ++ [HookEvent.cleanupRun e.path e.cursor c] }
              | none => stA).hookArr = stA.hookArr ∧
            (match cl with
              | some c => env.runCleanup c
                  { stA with hookTrace := stA.hookTrace ++ [HookEvent.cleanupRun e.path e.cursor c] }
              | none => stA).hookHeap = stA.hookHeap ∧
            (match cl with
              | some c => env.runCleanup c
                  { stA with hookTrace := stA.hookTrace ++ [HookEvent.cleanupRun e.path e.cursor c] }
              | none => stA).hookTrace = stA.hookTrace ++
                (match cl with
                  | some c => [HookEvent.cleanupRun e.path e.cursor c]
                  | none => []) := by
          intro stA
          rcases cl with _ | c
          · simp
          · have h1 := (henv.1 c
              { stA with hookTrace := stA.hookTrace ++ [HookEvent.cleanupRun e.path e.cursor c] })
            exact ⟨h1.1, h1.2.1, h1.2.2⟩
        have h1 := hcl s
        set st1 := (match cl with
          | some c => env.runCleanup c
              { s with hookTrace := s.hookTrace ++ [HookEvent.cleanupRun e.path e.cursor c] }
          | none => s) with hst1
        set st2 : St :=
          { st1 with hookTrace := st1.hookTrace ++ [HookEvent.effectRun e.path e.cursor eff] }
          with hst2
        have h2 := henv.2 eff st2
        have harr3 : (env.runEffect eff st2).1.hookArr = s.hookArr := by
          rw [h2.1, hst2]
          exact h1.1
        have hheap3 : (env.runEffect eff st2).1.hookHeap = s.hookHeap := by
          rw [h2.2.1, hst2]
          exact h1.2.1
        have htr3 : (env.runEffect eff st2).1.hookTrace =
            s.hookTrace ++ (match cl with
              | some c => [HookEvent.cleanupRun e.path e.cursor c]
              | none => []) ++ [HookEvent.effectRun e.path e.cursor eff] := by
          rw [h2.2.2, hst2]
          show st1.hookTrace ++ _ = _
          rw [h1.2.2]
          cases cl <;> rfl
        have hfinal : flushStep env s e =
            heapSet (env.runEffect eff st2).1 arrId
              (((env.runEffect eff st2).1.hookHeap arrId).set e.cursor
                (Hook.effect d (env.runEffect eff st2).2 eff)) := by
          simp only [flushStep, harr, hslot]
          rw [← hst1, ← hst2]
          have hre : ((env.runEffect eff st2).1.hookHeap arrId).get? e.cursor =
              some (Hook.effect d cl eff) := by
            rw [hheap3]
            exact hslot
          rw [hre]
        rw [hfinal]
        refine ⟨?_, ?_, ?_, ?_⟩
        · simp [heapSet, harr3]
        · simp only [heapSet]
          rw [htr3]
          simp only [entryEvents, harr, hslot]
          cases cl <;> simp
        · intro a2 c2 hne
          have hne2 := hne arrId rfl
          by_cases ha : a2 = arrId
          · subst ha
            have hcne : c2 ≠ e.cursor := by
              intro hc
              exact hne2 (by rw [hc])
            simp only [heapSet, if_pos, hheap3]
            rw [List.get?_eq_getElem?, List.get?_eq_getElem?,
              List.getElem?_set_ne (fun hh => hcne hh.symm)]
          · simp only [heapSet, if_neg (fun hh : a2 = arrId => ha hh), hheap3]
        · intro arrId2 d2 cl2 eff2 harr2 hslot2
          obtain rfl : arrId = arrId2 := Option.some.inj harr2
          have hinj : Hook.effect d cl eff = Hook.effect d2 cl2 eff2 :=
            Option.some.inj (hslot.symm.trans hslot2)
          cases hinj
          refine ⟨st2, ?_⟩
          have hlt : e.cursor < ((env.runEffect eff st2).1.hookHeap arrId).length := by
            rw [hheap3]
            rcases List.get?_eq_some.mp hslot with ⟨h, _⟩
            exact h
          simp only [heapSet, if_pos rfl]
          rw [List.get?_eq_getElem?]
          exact List.getElem?_set_eq_of_lt _ hlt

theorem flushFold_spec (env : HookEnv) (henv : effectPreserving env) :
    ∀ (q : List EffectEntry) (s : St), q.Nodup → slotsDistinct s q →
      (q.foldl (flushStep env) s).hookArr = s.hookArr ∧
      (q.foldl (flushStep env) s).hookTrace = s.hookTrace ++ q.flatMap (entryEvents s) := by
  intro q
  induction q with
  | nil => intro s _ _; simp
  | cons e t ih =>
    intro s hnd hsd
    have hndt := (List.nodup_cons.mp hnd).2
    have hent : e ∉ t := (List.nodup_cons.mp hnd).1
    have hf := flushStep_facts env henv s e
    have hagree : ∀ e2 ∈ t, entryEvents (flushStep env s e) e2 = entryEvents s e2 := by
      intro e2 he2
      have hne : e ≠ e2 := fun hh => hent (hh ▸ he2)
      rcases ha2 : alGet s.hookArr e2.path with _ | a2
      · simp only [entryEvents, hf.1, ha2]
      · simp only [entryEvents, hf.1, ha2]
        rw [hf.2.2.1 a2 e2.cursor (fun a1 h1 =>
          hsd e e2 (by simp) (by simp [he2]) hne a1 a2 h1 ha2)]
    have hsd' : slotsDistinct (flushStep env s e) t := by
      intro e1 e2 h1 h2 hne a1 a2 hg1 hg2
      rw [hf.1] at hg1 hg2
      exact hsd e1 e2 (by simp [h1]) (by simp [h2]) hne a1 a2 hg1 hg2
    have hrec := ih (flushStep env s e) hndt hsd'
    simp only [List.foldl_cons]
    constructor
    · rw [hrec.1, hf.1]
    · rw [hrec.2, hf.2.1, flatMap_congr_mem t _ _ hagree]
      simp [List.flatMap_cons]

theorem flushStep_queue (env : HookEnv) (hq : queuePreserving env) (s : St) (e : EffectEntry) :
    (flushStep env s e).effQueue = s.effQueue := by
  rcases harr : alGet s.hookArr e.path with _ | arrId
  · simp only [flushStep, harr]
  · rcases hslot : (s.hookHeap arrId).get? e.cursor with _ | hk
    · simp only [flushStep, harr, hslot]
    · rcases hk with v | ⟨d, cl, eff⟩
      · simp only [flushStep, harr, hslot]
      · simp only [flushStep, harr, hslot]
        rcases cl with _ | c
        · split <;> simp [heapSet, hq.1, hq.2]
        · split <;> simp [heapSet, hq.1, hq.2]

theorem flushFold_queue (env : HookEnv) (hq : queuePreserving env) :
    ∀ (q : List EffectEntry) (s : St), (q.foldl (flushStep env) s).effQueue = s.effQueue := by
  intro q
  induction q with
  | nil => intro s; rfl
  | cons e t ih =>
    intro s
    simp only [List.foldl_cons]
    rw [ih (flushStep env s e), flushStep_queue env hq s e]

/-- C6: one flush snapshots the queue and clears it — the executed thunks
are exactly those of the snapshot, in FIFO order, each stored cleanup
running strictly before its effect thunk (the trace equals the predicted
event list even when thunks enqueue new entries, which therefore run only
on a later flush); with non-enqueueing thunks the queue is empty
afterwards; and a flushed effect slot afterwards stores the thunk's
returned cleanup (none when the returned value is not callable). -/
theorem flushEffects_spec :
    (∀ (env : HookEnv) (st : St), effectPreserving env → st.effQueue.Nodup →
      slotsDistinct st st.effQueue →
      (flushEffects env st).hookTrace = st.hookTrace ++ flushTraceSpec st) ∧
    (∀ (env : HookEnv) (st : St), queuePreserving env →
      (flushEffects env st).effQueue = []) ∧
    (∀ (env : HookEnv) (st : St), effectPreserving env →
      ∀ p c arrId d cl eff, st.effQueue = [⟨p, c⟩] →
        alGet st.hookArr p = some arrId →
        (st.hookHeap arrId).get? c = some (Hook.effect d cl eff) →
        ∃ runSt, ((flushEffects env st).hookHeap arrId).get? c =
          some (Hook.effect d (env.runEffect eff runSt).2 eff)) := by
  refine ⟨?_, ?_, ?_⟩
  · intro env st henv hnd hsd
    have h := flushFold_spec env henv st.effQueue { st with effQueue := [] } hnd hsd
    exact h.2
  · intro env st hq
    exact flushFold_queue env hq st.effQueue { st with effQueue := [] }
  · intro env st henv p c arrId d cl eff hq harr hslot
    have hf := (flushStep_facts env henv { st with effQueue := [] } ⟨p, c⟩).2.2.2
      arrId d cl eff harr hslot
    show ∃ runSt, ((st.effQueue.foldl (flushStep env) { st with effQueue := [] }).hookHeap arrId).get? c =
      some (Hook.effect d (env.runEffect eff runSt).2 eff)
    rw [hq]
    simpa using hf

/-- C6 witness: flushing the two pending entries of a concrete state runs
cleanup 9 before effect 4, then effect 5, in queue order; the queue is
empty afterwards; and a flushed slot stores the callable cleanup returned
by its thunk (taggingEnv returns 100 + the effect id). -/
theorem flushEffects_spec_witness :
    (flushEffects taggingEnv flushSt).hookTrace =
      [HookEvent.cleanupRun "0" 0 9, HookEvent.effectRun "0" 0 4,
       HookEvent.effectRun "0" 1 5] ∧
    (flushEffects taggingEnv flushSt).effQueue = [] ∧
    ((flushEffects taggingEnv { flushSt with effQueue := [⟨"0", 0⟩] }).hookHeap 0).get? 0 =
      some (Hook.effect none (some 104) 4) := by
  have henv : effectPreserving taggingEnv :=
    ⟨fun c s => ⟨rfl, rfl, rfl⟩, fun e s => ⟨rfl, rfl, rfl⟩⟩
  have hqp : queuePreserving taggingEnv := ⟨fun c s => rfl, fun e s => rfl⟩
  refine ⟨?_, ?_, ?_⟩
  · have hsd : slotsDistinct flushSt flushSt.effQueue := by
      intro e1 e2 h1 h2 hne a1 a2 g1 g2
      have h0 : alGet flushSt.hookArr "0" = some 0 := rfl
      fin_cases h1 <;> fin_cases h2 <;>
        first
        | exact absurd rfl hne
        | · obtain rfl : 0 = a1 := Option.some.inj (h0.symm.trans g1)
            obtain rfl : 0 = a2 := Option.some.inj (h0.symm.trans g2)
            decide
    rw [flushEffects_spec.1 taggingEnv flushSt henv (by decide) hsd]
    rfl
  · exact flushEffects_spec.2.1 taggingEnv flushSt hqp
  · have h := flushEffects_spec.2.2 taggingEnv { flushSt with effQueue := [⟨"0", 0⟩] } henv
      "0" 0 0 none (some 9) 4 rfl rfl rfl
    rcases h with ⟨runSt, hh⟩
    exact hh

theorem Instance.withNode_iid (i : Instance) (n : VNode) : (i.withNode n).iid = i.iid := by
  cases i
  rfl

theorem Instance.withChildrenNode_iid (i : Instance) (c : InstList) (n : VNode) :
    (i.withChildrenNode c n).iid = i.iid := by
  cases i
  rfl

theorem removeFold_subset (pd : Nat) :
    ∀ (L : List Nat) (st : St) (x : Nat),
      x ∈ ((L.foldl
        (fun st node =>
          if st.parentOf node = some pd then removeChildOp st pd node else st) st).childListOf pd) →
      x ∈ st.childListOf pd := by
  intro L
  induction L with
  | nil => intro st x h; exact h
  | cons a t ih =>
    intro st x h
    simp only [List.foldl_cons] at h
    have h2 := ih _ x h
    by_cases hp : st.parentOf a = some pd
    · simp only [if_pos hp, removeChildOp, if_true] at h2
      exact List.mem_of_mem_filter h2
    · simpa [if_neg hp] using h2

theorem removeFold_consistent (pd : Nat) :
    ∀ (L : List Nat) (st : St),
      (∀ x, x ∈ st.childListOf pd → st.parentOf x = some pd) →
      (∀ x, x ∈ ((L.foldl
        (fun st node =>
          if st.parentOf node = some pd then removeChildOp st pd node else st) st).childListOf pd) →
        ((L.foldl
          (fun st node =>
            if st.parentOf node = some pd then removeChildOp st pd node else st) st).parentOf x =
          some pd)) := by
  intro L
  induction L with
  | nil => intro st h; exact h
  | cons a t ih =>
    intro st h
    simp only [List.foldl_cons]
    by_cases hp : st.parentOf a = some pd
    · rw [if_pos hp]
      refine ih _ ?_
      intro x hx
      simp only [removeChildOp, if_true] at hx
      have hx2 := List.mem_of_mem_filter hx
      have hxa : x ≠ a := by
        have := List.of_mem_filter hx
        simpa using this
      simp only [removeChildOp]
      rw [if_neg hxa]
      exact h x hx2
    · rw [if_neg hp]
      exact ih st h

theorem removeFold_removes (pd : Nat) :
    ∀ (L : List Nat) (st : St),
      (∀ x, x ∈ st.childListOf pd → st.parentOf x = some pd) →
      ∀ d ∈ L,
        d ∉ ((L.foldl
          (fun st node =>
            if st.parentOf node = some pd then removeChildOp st pd node else st) st).childListOf pd) := by
  intro L
  induction L with
  | nil => intro st _ d hd; cases hd
  | cons a t ih =>
    intro st h d hd
    simp only [List.foldl_cons]
    rcases List.mem_cons.mp hd with rfl | hdt
    · -- the head is removed now and never re-added
      by_cases hp : st.parentOf d = some pd
      · rw [if_pos hp]
        intro hmem
        have := removeFold_subset pd t _ d hmem
        simp only [removeChildOp, if_true] at this
        have := List.of_mem_filter this
        simp at this
      · rw [if_neg hp]
        intro hmem
        exact hp (h d (removeFold_subset pd t st d hmem))
    · by_cases hp : st.parentOf a = some pd
      · rw [if_pos hp]
        refine ih _ ?_ d hdt
        intro x hx
        simp only [removeChildOp, if_true] at hx
        have hx2 := List.mem_of_mem_filter hx
        have hxa : x ≠ a := by
          have := List.of_mem_filter hx
          simpa using this
        simp only [removeChildOp]
        rw [if_neg hxa]
        exact h x hx2
      · rw [if_neg hp]
        exact ih st h d hdt

/-- Removing an instance leaves none of its concrete nodes as a child of
the target (under the parent-pointer consistency of the target node). -/
theorem removeInstance_removes (st : St) (pd : Nat) (inst : Option Instance)
    (hcons : ∀ x, x ∈ st.childListOf pd → st.parentOf x = some pd) :
    ∀ d ∈ getDomNodes inst, d ∉ (removeInstance st pd inst).childListOf pd := by
  intro d hd
  exact removeFold_removes pd (getDomNodes inst) st hcons d hd

theorem update_iid (env : Env) (fuel : Nat) (pd : Nat) (i : Instance) (n : VNode)
    (path : String) (st : St) :
    ∀ r, update env fuel pd i n path st = some r → r.1.iid = i.iid := by
  intro r h
  rcases fuel with _ | fuel
  · exact absurd h (by simp [update, reconcilerAt])
  · simp only [update, reconcilerAt] at h
    split at h
    · split at h
      · cases h
        exact Instance.withNode_iid i n
      · cases h
        rfl
    · rcases Option.map_eq_some'.mp h with ⟨a, _, ha⟩
      rw [← ha]
      exact Instance.withChildrenNode_iid i _ n
    · rcases Option.map_eq_some'.mp h with ⟨a, _, ha⟩
      rw [← ha]
      exact Instance.withChildrenNode_iid i _ n
    · split at h
      · split at h
        · cases h
          rfl
        · rcases Option.map_eq_some'.mp h with ⟨a, _, ha⟩
          rw [← ha]
          exact Instance.withChildrenNode_iid i _ n
      · cases h
        rfl

/-- C1: the reconcile dispatcher.  A null descriptor removes every concrete
node owned by the old instance from the target and returns null (a strict
no-op when the old instance is null too); a null old instance delegates to
a fresh mount; a type or key mismatch removes the old subtree and mounts
the new descriptor fresh at the same path; otherwise the instance is
updated in place — the returned instance is the same object (same
identity) as the old one. -/
theorem reconcile_dispatch (env : Env) (fuel : Nat) (pd : Nat) (inst : Option Instance)
    (n : VNode) (path : String) (st : St)
    (hcons : ∀ x, x ∈ st.childListOf pd → st.parentOf x = some pd) :
    (∃ st', reconcile env (fuel + 1) pd inst none path st = some (none, st') ∧
      (∀ d ∈ getDomNodes inst, d ∉ st'.childListOf pd) ∧
      (inst = none → st' = st)) ∧
    (reconcile env (fuel + 1) pd none (some n) path st =
      (mount env fuel pd n path st).map (fun r => (some r.1, r.2))) ∧
    (∀ i, inst = some i → (i.node.ntype ≠ n.ntype ∨ i.key ≠ n.key) →
      reconcile env (fuel + 1) pd inst (some n) path st =
        (mount env fuel pd n path (removeInstance st pd (some i))).map
          (fun r => (some r.1, r.2)) ∧
      (∀ d ∈ getDomNodes (some i), d ∉ (removeInstance st pd (some i)).childListOf pd)) ∧
    (∀ i, inst = some i → i.node.ntype = n.ntype → i.key = n.key →
      ∀ r, reconcile env (fuel + 1) pd inst (some n) path st = some r →
        ∃ ri st', update env fuel pd i n path st = some (ri, st') ∧
          r = (some ri, st') ∧ ri.iid = i.iid) := by
  refine ⟨?_, rfl, ?_, ?_⟩
  · rcases inst with _ | i
    · exact ⟨st, rfl, by simp [getDomNodes], fun _ => rfl⟩
    · refine ⟨removeInstance st pd (some i), rfl, ?_, by intro hh; cases hh⟩
      exact removeInstance_removes st pd (some i) hcons
  · intro i hi hne
    subst hi
    constructor
    · have heq : reconcile env (fuel + 1) pd (some i) (some n) path st =
          if i.node.ntype ≠ n.ntype ∨ i.key ≠ n.key then
            (mount env fuel pd n path (removeInstance st pd (some i))).map
              (fun r => (some r.1, r.2))
          else (update env fuel pd i n path st).map (fun r => (some r.1, r.2)) := rfl
      rw [heq, if_pos hne]
    · exact removeInstance_removes st pd (some i) hcons
  · intro i hi hty hk r hr
    subst hi
    have hnot : ¬ (i.node.ntype ≠ n.ntype ∨ i.key ≠ n.key) := by
      push_neg
      exact ⟨hty, hk⟩
    have heq : reconcile env (fuel + 1) pd (some i) (some n) path st =
        if i.node.ntype ≠ n.ntype ∨ i.key ≠ n.key then
          (mount env fuel pd n path (removeInstance st pd (some i))).map
            (fun r => (some r.1, r.2))
        else (update env fuel pd i n path st).map (fun r => (some r.1, r.2)) := rfl
    rw [heq, if_neg hnot] at hr
    rcases Option.map_eq_some'.mp hr with ⟨a, ha1, ha2⟩
    exact ⟨a.1, a.2, ha1, by rw [← ha2], update_iid env fuel pd i n path st a ha1⟩

/-- C1 witness: on a concrete state holding one mounted text under the
root, the four dispatch branches behave as stated. -/
theorem reconcile_dispatch_witness :
    (∃ st', reconcile trivialEnv 3 0 none none "0" emptySt = some (none, st') ∧
      (∀ d ∈ getDomNodes none, d ∉ st'.childListOf 0) ∧ (none = (none : Option Instance) → st' = emptySt)) := by
  have h := (reconcile_dispatch trivialEnv 2 0 none (tText "x") "0" emptySt
    (by intro x hx; cases hx)).1
  exact h

theorem alSet_map_fst {α : Type} (k : String) (v : α) :
    ∀ (m : List (String × α)),
      (alSet m k v).map Prod.fst =
        if (alGet m k).isSome then m.map Prod.fst else m.map Prod.fst ++ [k] := by
  intro m
  induction m with
  | nil => simp [alSet, alGet]
  | cons kv t ih =>
    rcases kv with ⟨k0, w⟩
    by_cases hk : k0 = k
    · subst hk
      simp [alSet, alGet]
    · simp only [alSet, if_neg hk, alGet, List.map_cons, ih]
      by_cases hgs : (alGet t k).isSome
      all_goals simp [hk, hgs]

theorem alSet_nodup_keys {α : Type} (m : List (String × α)) (k : String) (v : α)
    (hm : (m.map Prod.fst).Nodup) : ((alSet m k v).map Prod.fst).Nodup := by
  rw [alSet_map_fst]
  by_cases hg : (alGet m k).isSome
  · simpa [hg] using hm
  · have hk : k ∉ m.map Prod.fst := by
      rw [← alGet_eq_none_iff]
      exact Option.not_isSome_iff_eq_none.mp hg
    simp [hg, List.nodup_append, hm, hk]

theorem partitionChildren_nodup_keys :
    ∀ (old : List (Option Instance)),
      (((partitionChildren old).1).map Prod.fst).Nodup := by
  have haux : ∀ (old : List (Option Instance))
      (acc : List (String × Instance) × List Instance),
      ((acc.1).map Prod.fst).Nodup →
      (((old.foldl
        (fun acc child =>
          match child with
          | none => acc
          | some c =>
            match c.key with
            | some k => (alSet acc.1 k c, acc.2)
            | none => (acc.1, acc.2 ++ [c]))
        acc).1).map Prod.fst).Nodup := by
    intro old
    induction old with
    | nil => intro acc h; exact h
    | cons child t ih =>
      intro acc h
      simp only [List.foldl_cons]
      rcases child with _ | c
      · exact ih acc h
      · rcases hk : c.key with _ | k
        · refine ih _ ?_
          simp only [hk]
          simpa using h
        · refine ih _ ?_
          simp only [hk]
          exact alSet_nodup_keys acc.1 k c h
  intro old
  exact haux old ([], []) (by simp)

theorem rcLoop_eq_claimedPairs (env : Env) (pd : Nat) (sibs : List VNode) (path : String) :
    ∀ (rest : List VNode) (fuel : Nat) (keyed : List (String × Instance))
      (unkeyed : List Instance) (uidx i : Nat) (st : St),
      rcLoop env fuel pd keyed unkeyed uidx rest i sibs path st =
        (rcFold env pd fuel (claimedPairs keyed unkeyed uidx rest).1 i sibs path st).map
          (fun r => (r.1, (claimedPairs keyed unkeyed uidx rest).2.1,
            (claimedPairs keyed unkeyed uidx rest).2.2, r.2)) := by
  intro rest
  induction rest with
  | nil =>
    intro fuel keyed unkeyed uidx i st
    rcases fuel with _ | fuel
    · rfl
    · rfl
  | cons n rest2 ih =>
    intro fuel keyed unkeyed uidx i st
    rcases fuel with _ | fuel
    · rfl
    · have hprojr : ∀ (o : Option Instance) (nd : Option VNode) (p : String) (stx : St),
          (reconcilerAt env fuel).reconcileF pd o nd p stx =
            reconcile env fuel pd o nd p stx := fun _ _ _ _ => rfl
      have hprojl : ∀ (ky : List (String × Instance)) (u : List Instance) (ui : Nat)
          (r : List VNode) (i2 : Nat) (s : List VNode) (p : String) (stx : St),
          (reconcilerAt env fuel).rcLoopF pd ky u ui r i2 s p stx =
            rcLoop env fuel pd ky u ui r i2 s p stx := fun _ _ _ _ _ _ _ _ => rfl
      simp only [rcLoop, reconcilerAt]
      simp only [hprojr, hprojl]
      rcases hk : n.key with _ | k
      · rcases hu : unkeyed.get? uidx with _ | old
        · simp only [hk, hu, claimedPairs, rcFold, ih]
          cases hrc : reconcile env fuel pd none (some n)
              (createChildPath path none i (some n.ntype) sibs) st with
          | none => rfl
          | some r =>
            simp only [Option.map_map]
            cases rcFold env pd fuel
                (claimedPairs keyed unkeyed uidx rest2).1 (i + 1) sibs path r.2 <;> rfl
        · simp only [hk, hu, claimedPairs, rcFold, ih]
          cases hrc : reconcile env fuel pd (some old) (some n)
              (createChildPath path none i (some n.ntype) sibs) st with
          | none => rfl
          | some r =>
            simp only [Option.map_map]
            cases rcFold env pd fuel
                (claimedPairs keyed unkeyed (uidx + 1) rest2).1 (i + 1) sibs path r.2 <;> rfl
      · rcases hg : alGet keyed k with _ | old
        · simp only [hk, hg, claimedPairs, rcFold, ih]
          cases hrc : reconcile env fuel pd none (some n)
              (createChildPath path (some k) i (some n.ntype) sibs) st with
          | none => rfl
          | some r =>
            simp only [Option.map_map]
            cases rcFold env pd fuel
                (claimedPairs keyed unkeyed uidx rest2).1 (i + 1) sibs path r.2 <;> rfl
        · simp only [hk, hg, claimedPairs, rcFold, ih]
          cases hrc : reconcile env fuel pd (some old) (some n)
              (createChildPath path (some k) i (some n.ntype) sibs) st with
          | none => rfl
          | some r =>
            simp only [Option.map_map]
            cases rcFold env pd fuel
                (claimedPairs (alDelete keyed k) unkeyed uidx rest2).1 (i + 1) sibs path r.2 <;> rfl

theorem claimedPairs_no_claims (unkeyed : List Instance) (k : String) :
    ∀ (new : List VNode) (keyed : List (String × Instance)) (uidx : Nat),
      alGet keyed k = none →
      ((claimedPairs keyed unkeyed uidx new).1.countP
        (fun p => decide (p.2.key = some k) && p.1.isSome)) = 0 := by
  intro new
  induction new with
  | nil => intro keyed uidx h; rfl
  | cons m rest ih =>
    intro keyed uidx h
    rcases hk : m.key with _ | k0
    · rcases hu : unkeyed.get? uidx with _ | old
      · simp only [claimedPairs, hk, hu, List.countP_cons]
        simp [hk, ih keyed uidx h]
      · simp only [claimedPairs, hk, hu, List.countP_cons]
        simp [hk, ih keyed (uidx + 1) h]
    · rcases hg : alGet keyed k0 with _ | old
      · simp only [claimedPairs, hk, hg, List.countP_cons]
        simp [ih keyed uidx h]
      · have hne : k0 ≠ k := by
          intro hkk
          rw [hkk, h] at hg
          cases hg
        simp only [claimedPairs, hk, hg, List.countP_cons]
        simp [hk, hne, ih (alDelete keyed k0) uidx (alGet_none_alDelete keyed k k0 h)]

theorem claimedPairs_claim_once (unkeyed : List Instance) (k : String) :
    ∀ (new : List VNode) (keyed : List (String × Instance)) (uidx : Nat),
      ((keyed.map Prod.fst).Nodup) →
      ((claimedPairs keyed unkeyed uidx new).1.countP
        (fun p => decide (p.2.key = some k) && p.1.isSome)) ≤ 1 := by
  intro new
  induction new with
  | nil => intro keyed uidx hnd; simp [claimedPairs]
  | cons m rest ih =>
    intro keyed uidx hnd
    rcases hk : m.key with _ | k0
    · rcases hu : unkeyed.get? uidx with _ | old
      · simp only [claimedPairs, hk, hu, List.countP_cons]
        simpa [hk] using ih keyed uidx hnd
      · simp only [claimedPairs, hk, hu, List.countP_cons]
        simpa [hk] using ih keyed (uidx + 1) hnd
    · rcases hg : alGet keyed k0 with _ | old
      · simp only [claimedPairs, hk, hg, List.countP_cons]
        simpa using ih keyed uidx hnd
      · by_cases hkk : k0 = k
        · subst hkk
          simp only [claimedPairs, hk, hg, List.countP_cons]
          have h0 := claimedPairs_no_claims unkeyed k0 rest (alDelete keyed k0) uidx
            (alGet_alDelete_self keyed k0 hnd)
          simp [hk, h0]
        · simp only [claimedPairs, hk, hg, List.countP_cons]
          have hrec := ih (alDelete keyed k0) uidx (alDelete_nodup keyed k0 hnd)
          simpa [hk, hkk] using hrec

theorem claimedPairs_keyed_pick (unkeyed : List Instance) :
    ∀ (new : List VNode) (keyed : List (String × Instance)) (uidx j : Nat)
      (n : VNode) (k : String) (old : Instance),
      (new.filterMap VNode.key).Nodup →
      new.get? j = some n → n.key = some k → alGet keyed k = some old →
      (claimedPairs keyed unkeyed uidx new).1.get? j = some (some old, n) := by
  intro new
  induction new with
  | nil =>
    intro keyed uidx j n k old hnd hj hk hg
    simp at hj
  | cons m rest ih =>
    intro keyed uidx j n k old hnd hj hk hg
    rcases j with _ | j
    · simp only [List.get?_cons_zero] at hj
      obtain rfl := Option.some.inj hj
      simp only [claimedPairs, hk, hg]
      rfl
    · simp only [List.get?_cons_succ] at hj
      have hnmem : n ∈ rest := List.get?_mem hj
      have hkmem : k ∈ rest.filterMap VNode.key := List.mem_filterMap.mpr ⟨n, hnmem, hk⟩
      rcases hmk : m.key with _ | k0
      · have hnd2 : (rest.filterMap VNode.key).Nodup := by
          simpa [List.filterMap_cons, hmk] using hnd
        rcases hu : unkeyed.get? uidx with _ | oldu
        · simp only [claimedPairs, hmk, hu, List.get?_cons_succ]
          exact ih keyed uidx j n k old hnd2 hj hk hg
        · simp only [claimedPairs, hmk, hu, List.get?_cons_succ]
          exact ih keyed (uidx + 1) j n k old hnd2 hj hk hg
      · have hfm : (m :: rest).filterMap VNode.key = k0 :: rest.filterMap VNode.key := by
          simp [List.filterMap_cons, hmk]
        rw [hfm] at hnd
        have hk0nin : k0 ∉ rest.filterMap VNode.key := (List.nodup_cons.mp hnd).1
        have hnd2 := (List.nodup_cons.mp hnd).2
        have hne : k ≠ k0 := fun he => hk0nin (he ▸ hkmem)
        rcases hg0 : alGet keyed k0 with _ | old0
        · simp only [claimedPairs, hmk, hg0, List.get?_cons_succ]
          exact ih keyed uidx j n k old hnd2 hj hk hg
        · simp only [claimedPairs, hmk, hg0, List.get?_cons_succ]
          refine ih (alDelete keyed k0) uidx j n k old hnd2 hj hk ?_
          rw [alGet_alDelete_ne keyed k k0 hne]
          exact hg

theorem claimedPairs_unkeyed_picks (unkeyed : List Instance) :
    ∀ (new : List VNode) (keyed : List (String × Instance)) (uidx : Nat),
      (((claimedPairs keyed unkeyed uidx new).1.filter
          (fun p => p.2.key.isNone)).map Prod.fst) =
        (List.range (new.countP (fun n => n.key.isNone))).map
          (fun j => unkeyed.get? (uidx + j)) := by
  intro new
  induction new with
  | nil => intro keyed uidx; rfl
  | cons m rest ih =>
    intro keyed uidx
    rcases hk : m.key with _ | k0
    · rcases hu : unkeyed.get? uidx with _ | old
      · simp only [claimedPairs, hk, hu, List.filter_cons, List.countP_cons]
        simp only [hk, Option.isNone_none, if_pos, List.map_cons,
          List.range_succ_eq_map, List.map_map]
        have hlen : unkeyed.length ≤ uidx := List.get?_eq_none.mp hu
        refine List.cons_eq_cons.mpr ⟨?_, ?_⟩
        · rw [Nat.add_zero]
          exact hu.symm
        · rw [ih keyed uidx]
          have h1 : (List.range (rest.countP (fun n => n.key.isNone))).map
              (fun j => unkeyed.get? (uidx + j)) =
              (List.range (rest.countP (fun n => n.key.isNone))).map
                (fun _ => (none : Option Instance)) :=
            List.map_congr_left (fun j _ => List.get?_eq_none.mpr (by omega))
          have h2 : (List.range (rest.countP (fun n => n.key.isNone))).map
              ((fun j => unkeyed.get? (uidx + j)) ∘ Nat.succ) =
              (List.range (rest.countP (fun n => n.key.isNone))).map
                (fun _ => (none : Option Instance)) :=
            List.map_congr_left (fun j _ => List.get?_eq_none.mpr (by omega))
          rw [h1, h2]
      · simp only [claimedPairs, hk, hu, List.filter_cons, List.countP_cons]
        simp only [hk, Option.isNone_none, if_pos, List.map_cons,
          List.range_succ_eq_map, List.map_map]
        refine List.cons_eq_cons.mpr ⟨?_, ?_⟩
        · rw [Nat.add_zero]
          exact hu.symm
        · rw [ih keyed (uidx + 1)]
          refine List.map_congr_left ?_
          intro j hj
          have : uidx + 1 + j = uidx + (j + 1) := by omega
          rw [this]
          rfl
    · have hcnt : (m :: rest).countP (fun n => n.key.isNone) =
          rest.countP (fun n => n.key.isNone) := by
        simp [List.countP_cons, hk]
      rw [hcnt]
      rcases hg : alGet keyed k0 with _ | old0
      · simp only [claimedPairs, hk, hg, List.filter_cons]
        simp only [hk, Option.isNone_some, if_neg]
        exact ih keyed uidx
      · simp only [claimedPairs, hk, hg, List.filter_cons]
        simp only [hk, Option.isNone_some, if_neg]
        exact ih (alDelete keyed k0) uidx

theorem removeInstance_subset (st : St) (pd : Nat) (i : Option Instance) (x : Nat)
    (h : x ∈ (removeInstance st pd i).childListOf pd) : x ∈ st.childListOf pd :=
  removeFold_subset pd (getDomNodes i) st x h

theorem removeInstance_consistent (st : St) (pd : Nat) (i : Option Instance)
    (h : ∀ x, x ∈ st.childListOf pd → st.parentOf x = some pd) :
    ∀ x, x ∈ (removeInstance st pd i).childListOf pd →
      (removeInstance st pd i).parentOf x = some pd :=
  removeFold_consistent pd (getDomNodes i) st h

theorem removeAll_subset (pd : Nat) :
    ∀ (L : List Instance) (st : St) (x : Nat),
      x ∈ (removeAll st pd L).childListOf pd → x ∈ st.childListOf pd := by
  intro L
  induction L with
  | nil => intro st x h; exact h
  | cons c t ih =>
    intro st x h
    exact removeInstance_subset st pd (some c) x (ih _ x h)

theorem removeAll_removes (pd : Nat) :
    ∀ (L : List Instance) (st : St),
      (∀ x, x ∈ st.childListOf pd → st.parentOf x = some pd) →
      ∀ c ∈ L, ∀ d ∈ getDomNodes (some c),
        d ∉ (removeAll st pd L).childListOf pd := by
  intro L
  induction L with
  | nil => intro st h c hc; cases hc
  | cons c0 t ih =>
    intro st h c hc d hd hmem
    rcases List.mem_cons.mp hc with rfl | hct
    · have h1 : d ∈ (removeInstance st pd (some c)).childListOf pd :=
        removeAll_subset pd t _ d hmem
      exact removeInstance_removes st pd (some c) h d hd h1
    · exact ih (removeInstance st pd (some c0))
        (removeInstance_consistent st pd (some c0) h) c hct d hd hmem

theorem reconcileChildren_decomp (env : Env) (fuel pd : Nat)
    (oldChildren : List (Option Instance)) (newChildren : List VNode)
    (path : String) (st : St) :
    reconcileChildren env (fuel + 1) pd oldChildren newChildren path st =
      (rcFold env pd fuel
          (claimedPairs (partitionChildren oldChildren).1
            (partitionChildren oldChildren).2 0 newChildren).1 0 newChildren path st).map
        (fun r => (r.1,
          adjustDomOrder (removeAll r.2 pd (unclaimedOf oldChildren newChildren)) pd r.1)) := by
  have h0 : reconcileChildren env (fuel + 1) pd oldChildren newChildren path st =
      (rcLoop env fuel pd (partitionChildren oldChildren).1
        (partitionChildren oldChildren).2 0 newChildren 0 newChildren path st).map
        (fun r =>
          (r.1, adjustDomOrder
            (((partitionChildren oldChildren).2.drop r.2.2.1).foldl
              (fun stx c => removeInstance stx pd (some c))
              (r.2.1.foldl (fun stx kv => removeInstance stx pd (some kv.2)) r.2.2.2))
            pd r.1)) := rfl
  rw [h0, rcLoop_eq_claimedPairs env pd newChildren path newChildren fuel
    (partitionChildren oldChildren).1 (partitionChildren oldChildren).2 0 0 st]
  simp only [Option.map_map]
  cases hF : rcFold env pd fuel
      (claimedPairs (partitionChildren oldChildren).1
        (partitionChildren oldChildren).2 0 newChildren).1 0 newChildren path st with
  | none => rfl
  | some a =>
    simp only [Option.map_some', Function.comp_apply, removeAll, unclaimedOf,
      List.foldl_append, List.foldl_map]

/-- C3: reconcileChildren partitions the old children, pairs each keyed
new descriptor whose key is in the old keyed map with exactly that old
instance (consuming it at most once: the key is deleted from the map),
pairs each unkeyed new descriptor with the next unconsumed unkeyed old
instance in original order (null when none remain), reconciles the pairs
in order, and removes the concrete nodes of every unclaimed old instance
(leftover keyed entries and the unconsumed unkeyed tail) from the
target. -/
theorem reconcileChildren_pairs_spec (env : Env) (fuel pd : Nat)
    (oldChildren : List (Option Instance)) (newChildren : List VNode)
    (path : String) (st : St) :
    (reconcileChildren env (fuel + 1) pd oldChildren newChildren path st =
      (rcFold env pd fuel
          (claimedPairs (partitionChildren oldChildren).1
            (partitionChildren oldChildren).2 0 newChildren).1 0 newChildren path st).map
        (fun r => (r.1,
          adjustDomOrder (removeAll r.2 pd (unclaimedOf oldChildren newChildren)) pd r.1))) ∧
    (∀ k : String,
      ((claimedPairs (partitionChildren oldChildren).1
          (partitionChildren oldChildren).2 0 newChildren).1.countP
        (fun p => decide (p.2.key = some k) && p.1.isSome)) ≤ 1) ∧
    ((newChildren.filterMap VNode.key).Nodup →
      ∀ (j : Nat) (n : VNode) (k : String) (old : Instance),
        newChildren.get? j = some n → n.key = some k →
        alGet (partitionChildren oldChildren).1 k = some old →
        (claimedPairs (partitionChildren oldChildren).1
          (partitionChildren oldChildren).2 0 newChildren).1.get? j =
          some (some old, n)) ∧
    ((((claimedPairs (partitionChildren oldChildren).1
          (partitionChildren oldChildren).2 0 newChildren).1.filter
        (fun p => p.2.key.isNone)).map Prod.fst) =
      (List.range (newChildren.countP (fun n => n.key.isNone))).map
        (fun j => (partitionChildren oldChildren).2.get? j)) ∧
    (∀ stp : St, (∀ x, x ∈ stp.childListOf pd → stp.parentOf x = some pd) →
      ∀ c ∈ unclaimedOf oldChildren newChildren, ∀ d ∈ getDomNodes (some c),
        d ∉ (removeAll stp pd (unclaimedOf oldChildren newChildren)).childListOf pd) := by
  refine ⟨reconcileChildren_decomp env fuel pd oldChildren newChildren path st,
    fun k => claimedPairs_claim_once (partitionChildren oldChildren).2 k newChildren
      (partitionChildren oldChildren).1 0 (partitionChildren_nodup_keys oldChildren),
    fun hnd j n k old hj hk hg => claimedPairs_keyed_pick (partitionChildren oldChildren).2
      newChildren (partitionChildren oldChildren).1 0 j n k old hnd hj hk hg,
    ?_,
    fun stp hc c hcmem d hdmem =>
      removeAll_removes pd (unclaimedOf oldChildren newChildren) stp hc c hcmem d hdmem⟩
  refine (claimedPairs_unkeyed_picks (partitionChildren oldChildren).2 newChildren
    (partitionChildren oldChildren).1 0).trans (List.map_congr_left ?_)
  intro j hj
  rw [Nat.zero_add]

/-- C3 witness: with one old keyed child (key a, owning node 5), a
matching keyed descriptor is paired with exactly that instance; with no
new descriptors the instance is unclaimed and its node ends up out of the
target child list. -/
theorem reconcileChildren_pairs_spec_witness :
    ((claimedPairs (partitionChildren [some c3KeyedInst]).1
        (partitionChildren [some c3KeyedInst]).2 0 [tKeyedDiv "a" []]).1.get? 0 =
      some (some c3KeyedInst, tKeyedDiv "a" [])) ∧
    (5 ∉ (removeAll emptySt 0
      (unclaimedOf [some c3KeyedInst] ([] : List VNode))).childListOf 0) := by
  constructor
  · exact (reconcileChildren_pairs_spec trivialEnv 1 0 [some c3KeyedInst]
      [tKeyedDiv "a" []] "0" emptySt).2.2.1 (by decide) 0 (tKeyedDiv "a" []) "a"
      c3KeyedInst rfl rfl rfl
  · exact (reconcileChildren_pairs_spec trivialEnv 1 0 [some c3KeyedInst]
      ([] : List VNode) "0" emptySt).2.2.2.2 emptySt
      (fun x hx => absurd hx (List.not_mem_nil x))
      c3KeyedInst (List.mem_cons_self c3KeyedInst []) 5 (by decide)

theorem elemAfter_cons_self (d : Nat) (R : List Nat) : elemAfter (d :: R) d = R.head? := by
  cases R with
  | nil => simp [elemAfter]
  | cons r R2 => simp [elemAfter]

theorem elemAfter_append (d : Nat) (R : List Nat) :
    ∀ (X : List Nat), d ∉ X → elemAfter (X ++ d :: R) d = R.head? := by
  intro X
  induction X with
  | nil => intro h; exact elemAfter_cons_self d R
  | cons x X2 ih =>
    intro h
    have hxd : ¬ x = d := fun he => h (by rw [← he]; exact List.mem_cons_self x X2)
    have hd2 : d ∉ X2 := fun hm => h (List.mem_cons_of_mem x hm)
    cases hXR : X2 ++ d :: R with
    | nil => simp at hXR
    | cons y T =>
      rw [List.cons_append, hXR]
      show (if x = d then some y else elemAfter (y :: T) d) = R.head?
      rw [if_neg hxd, ← hXR]
      exact ih hd2

theorem listInsBefore_cons_self (n a : Nat) (T : List Nat) :
    listInsBefore (a :: T) n a = n :: a :: T := by
  simp [listInsBefore]

theorem listInsBefore_append (n a : Nat) :
    ∀ (X Y : List Nat), a ∉ X →
      listInsBefore (X ++ Y) n a = X ++ listInsBefore Y n a := by
  intro X Y
  induction X with
  | nil => intro _; rfl
  | cons x X2 ih =>
    intro h
    have hxa : ¬ x = a := fun he => h (by rw [← he]; exact List.mem_cons_self x X2)
    have ha2 : a ∉ X2 := fun hm => h (List.mem_cons_of_mem x hm)
    show (if x = a then n :: x :: (X2 ++ Y) else x :: listInsBefore (X2 ++ Y) n a) = _
    rw [if_neg hxa, ih ha2]
    rfl

theorem detach_spec (st : St) (pd d : Nat) (U B : List Nat)
    (hlist : st.childListOf pd = U ++ B)
    (hcons : ∀ x, x ∈ st.childListOf pd ↔ st.parentOf x = some pd)
    (hdB : d ∉ B) :
    (detach st d).childListOf pd = U.filter (fun x => x ≠ d) ++ B ∧
    (detach st d).parentOf d = none ∧
    (∀ x, x ≠ d → (detach st d).parentOf x = st.parentOf x) := by
  rcases hp : st.parentOf d with _ | q
  · -- already detached: d is not a child of pd
    have hdnot : d ∉ st.childListOf pd := by
      intro hmem
      rw [(hcons d).mp hmem] at hp
      cases hp
    have hdU : d ∉ U := by
      intro hmem
      exact hdnot (by rw [hlist]; exact List.mem_append.mpr (Or.inl hmem))
    have hfU : U.filter (fun x => x ≠ d) = U :=
      List.filter_eq_self.mpr (fun a ha => by
        simp only [decide_eq_true_eq]
        exact fun he => hdU (he ▸ ha))
    simp only [detach, hp]
    exact ⟨by rw [hlist, hfU], by trivial, by intro x hx; trivial⟩
  · by_cases hq : q = pd
    · subst hq
      simp only [detach, hp]
      refine ⟨?_, by simp, fun x hx => by simp [hx]⟩
      simp only [if_pos rfl, if_true]
      rw [hlist, listRemove, List.filter_append]
      have hfB : B.filter (fun x => x ≠ d) = B :=
        List.filter_eq_self.mpr (fun a ha => by
          simp only [decide_eq_true_eq]
          exact fun he => hdB (he ▸ ha))
      rw [hfB]
    · have hdnot : d ∉ st.childListOf pd := by
        intro hmem
        have := (hcons d).mp hmem
        rw [hp] at this
        exact hq (Option.some.inj this)
      have hdU : d ∉ U := by
        intro hmem
        exact hdnot (by rw [hlist]; exact List.mem_append.mpr (Or.inl hmem))
      have hfU : U.filter (fun x => x ≠ d) = U :=
        List.filter_eq_self.mpr (fun a ha => by
          simp only [decide_eq_true_eq]
          exact fun he => hdU (he ▸ ha))
      simp only [detach, hp]
      refine ⟨?_, by simp, fun x hx => by simp [hx]⟩
      rw [if_neg (fun hh : pd = q => hq hh.symm), hlist, hfU]

theorem insertInstance_single (st : St) (pd : Nat) (inst : Option Instance)
    (anchor : Option Nat) (d : Nat) (h : getDomNodes inst = [d]) :
    insertInstance st pd inst anchor = insStep pd anchor st d := by
  simp only [insertInstance, h, List.foldl_cons, List.foldl_nil]
  rfl

theorem insStep_spec (pd d : Nat) (st : St) (U B : List Nat)
    (hlist : st.childListOf pd = U ++ B)
    (hnd : (U ++ B).Nodup)
    (hcons : ∀ x, x ∈ st.childListOf pd ↔ st.parentOf x = some pd)
    (hdB : d ∉ B) :
    (insStep pd B.head? st d).childListOf pd =
      U.filter (fun x => x ≠ d) ++ d :: B ∧
    (∀ x, x ∈ (insStep pd B.head? st d).childListOf pd ↔
      (insStep pd B.head? st d).parentOf x = some pd) ∧
    (∀ x, x ≠ d → (insStep pd B.head? st d).parentOf x = st.parentOf x) := by
  by_cases hc : st.parentOf d = some pd ∧ nextSiblingOf st d = B.head?
  · have hst : insStep pd B.head? st d = st := by
      simp only [insStep, if_pos hc]
    rw [hst]
    have hdmem : d ∈ U := by
      have h1 : d ∈ st.childListOf pd := (hcons d).mpr hc.1
      rw [hlist] at h1
      rcases List.mem_append.mp h1 with h2 | h2
      · exact h2
      · exact absurd h2 hdB
    obtain ⟨U1, U2, hU⟩ := List.append_of_mem hdmem
    subst hU
    have hnd2 : (U1 ++ d :: (U2 ++ B)).Nodup := by
      simpa [List.append_assoc] using hnd
    have hmid : (d :: (U1 ++ (U2 ++ B))).Nodup := List.nodup_middle.mp hnd2
    have hdnin : d ∉ U1 ++ (U2 ++ B) := (List.nodup_cons.mp hmid).1
    have hdU1 : d ∉ U1 := fun hm => hdnin (List.mem_append.mpr (Or.inl hm))
    have hsib : nextSiblingOf st d = (U2 ++ B).head? := by
      simp only [nextSiblingOf, hc.1]
      rw [hlist, show (U1 ++ d :: U2) ++ B = U1 ++ d :: (U2 ++ B) by simp]
      exact elemAfter_append d (U2 ++ B) U1 hdU1
    have hU2 : U2 = [] := by
      cases hu2 : U2 with
      | nil => rfl
      | cons u T =>
        exfalso
        rw [hu2, hc.2] at hsib
        cases B with
        | nil => simp at hsib
        | cons b B3 =>
          simp only [List.cons_append, List.head?_cons] at hsib
          obtain rfl := Option.some.inj hsib
          have huU : b ∈ U1 ++ d :: U2 := by
            rw [hu2]
            exact List.mem_append.mpr (Or.inr (List.mem_cons_of_mem d (List.mem_cons_self b T)))
          have huB : b ∈ b :: B3 := List.mem_cons_self b B3
          exact (List.disjoint_of_nodup_append hnd) huU huB
    subst hU2
    refine ⟨?_, hcons, fun x _ => rfl⟩
    have hfU1 : U1.filter (fun x => x ≠ d) = U1 := List.filter_eq_self.mpr (fun a ha => by
      simp only [decide_eq_true_eq]
      exact fun he => hdU1 (he ▸ ha))
    rw [hlist, List.filter_append, hfU1]
    simp
  · obtain ⟨hd1, hd2, hd3⟩ := detach_spec st pd d U B hlist hcons hdB
    have hfsub : ∀ x, x ∈ U.filter (fun y => y ≠ d) → x ∈ U := fun x hx =>
      List.mem_of_mem_filter hx
    have hfiff : ∀ x, x ≠ d → (x ∈ U.filter (fun y => y ≠ d) ↔ x ∈ U) := by
      intro x hx
      simp [List.mem_filter, hx]
    cases B with
    | nil =>
      have hins2 : insStep pd (([] : List Nat).head? ) st d = appendChildOp st pd d := by
        simp only [insStep, List.head?_nil]
        rw [if_neg (by simpa using hc)]
      rw [hins2]
      simp only [appendChildOp]
      refine ⟨?_, ?_, ?_⟩
      · simp only [if_pos rfl, if_true]
        rw [hd1]
        simp
      · intro x
        by_cases hx : x = d
        · rw [hx]
          simp [hd1]
        · simp only [if_neg hx]
          rw [hd3 x hx]
          simp only [if_pos rfl, if_true]
          rw [hd1]
          have h1 : (x ∈ (U.filter (fun y => y ≠ d) ++ ([] : List Nat)) ++ [d]) ↔ x ∈ U := by
            simp [List.mem_filter, hx]
          have h2 : x ∈ U ↔ st.parentOf x = some pd := by
            rw [← hcons x, hlist]
            simp
          exact h1.trans h2
      · intro x hx
        simp only [if_neg hx]
        exact hd3 x hx
    | cons b B2 =>
      have hbU : b ∉ U := fun hm =>
        (List.disjoint_of_nodup_append hnd) hm (List.mem_cons_self b B2)
      have hbUf : b ∉ U.filter (fun y => y ≠ d) := fun hm => hbU (hfsub b hm)
      have hins2 : insStep pd ((b :: B2).head?) st d = insertBeforeOp st pd d b := by
        simp only [insStep, List.head?_cons]
        rw [if_neg (by simpa using hc)]
      rw [hins2]
      simp only [insertBeforeOp]
      refine ⟨?_, ?_, ?_⟩
      · simp only [if_pos rfl, if_true]
        rw [hd1, listInsBefore_append d b (U.filter (fun y => y ≠ d)) (b :: B2) hbUf,
          listInsBefore_cons_self]
      · intro x
        by_cases hx : x = d
        · rw [hx]
          simp only [if_pos rfl, if_true]
          rw [hd1, listInsBefore_append d b (U.filter (fun y => y ≠ d)) (b :: B2) hbUf,
            listInsBefore_cons_self]
          simp
        · simp only [if_neg hx, if_true]
          rw [hd3 x hx,
            hd1, listInsBefore_append d b (U.filter (fun y => y ≠ d)) (b :: B2) hbUf,
            listInsBefore_cons_self]
          constructor
          · intro hmem
            rcases List.mem_append.mp hmem with h2 | h2
            · exact (hcons x).mp (by
                rw [hlist]
                exact List.mem_append.mpr (Or.inl (hfsub x h2)))
            · rcases List.mem_cons.mp h2 with h3 | h3
              · exact absurd h3 hx
              · exact (hcons x).mp (by
                  rw [hlist]
                  exact List.mem_append.mpr (Or.inr h3))
          · intro hpar
            have hmem : x ∈ st.childListOf pd := (hcons x).mpr hpar
            rw [hlist] at hmem
            rcases List.mem_append.mp hmem with h2 | h2
            · exact List.mem_append.mpr (Or.inl ((hfiff x hx).mpr h2))
            · exact List.mem_append.mpr (Or.inr (List.mem_cons_of_mem d h2))
      · intro x hx
        simp only [if_neg hx]
        exact hd3 x hx

theorem permFlatMap {α : Type} (l m : List α) (f : α → List Nat) (h : l.Perm m) :
    (l.flatMap f).Perm (m.flatMap f) := by
  have h2 : ((l.map f).flatten).Perm ((m.map f).flatten) := List.Perm.flatten (h.map f)
  simpa [List.flatMap_def] using h2

theorem adjustGo_orders (pd : Nat) :
    ∀ (L : List (Option Instance)) (st : St) (U B : List Nat),
      (∀ ci, some ci ∈ L → (getDomNodes (some ci)).length ≤ 1) →
      st.childListOf pd = U ++ B →
      (U ++ B).Nodup →
      (∀ x, x ∈ st.childListOf pd ↔ st.parentOf x = some pd) →
      (L.flatMap getDomNodes).Nodup →
      (∀ y ∈ L.flatMap getDomNodes, y ∉ B) →
      (∀ y ∈ L.flatMap getDomNodes, y ∉ U → st.parentOf y = none) →
      (adjustGo pd L (B.head?) st).childListOf pd =
        U.filter (fun x => decide (x ∉ L.flatMap getDomNodes)) ++
          (L.reverse.flatMap getDomNodes ++ B) := by
  intro L
  induction L with
  | nil =>
    intro st U B hone hlist hnd hcons hfnd hdisj hout
    simp only [adjustGo]
    rw [hlist]
    simp
  | cons c L2 ih =>
    intro st U B hone hlist hnd hcons hfnd hdisj hout
    have honeT : ∀ cj, some cj ∈ L2 → (getDomNodes (some cj)).length ≤ 1 :=
      fun cj hcj => hone cj (List.mem_cons_of_mem _ hcj)
    rcases c with _ | ci
    · have hfm : ((none : Option Instance) :: L2).flatMap getDomNodes =
          L2.flatMap getDomNodes := by
        simp [List.flatMap_cons, getDomNodes]
      rw [hfm] at hfnd hdisj hout
      simp only [adjustGo]
      rw [ih st U B honeT hlist hnd hcons hfnd hdisj hout]
      simp [List.flatMap_cons, List.flatMap_append, getDomNodes]
    · have hone1 := hone ci (List.mem_cons_self _ _)
      rcases hns : getDomNodes (some ci) with _ | ⟨d, ns2⟩
      · have hfd : getFirstDom (some ci) = none := by
          show instFirstDom ci = none
          rw [instFirstDom_eq, show instDomNodes ci = [] from hns]
          rfl
        have hfm : ((some ci) :: L2).flatMap getDomNodes = L2.flatMap getDomNodes := by
          simp [List.flatMap_cons, hns]
        rw [hfm] at hfnd hdisj hout
        simp only [adjustGo, hfd]
        rw [ih st U B honeT hlist hnd hcons hfnd hdisj hout]
        simp [List.flatMap_cons, List.flatMap_append, hns, hfm]
      · have hns2 : ns2 = [] := by
          rw [hns] at hone1
          simp only [List.length_cons] at hone1
          exact List.eq_nil_of_length_eq_zero (by omega)
        subst hns2
        have hfd : getFirstDom (some ci) = some d := by
          show instFirstDom ci = some d
          rw [instFirstDom_eq, show instDomNodes ci = [d] from hns]
          rfl
        have hfmcons : ((some ci) :: L2).flatMap getDomNodes =
            d :: L2.flatMap getDomNodes := by
          simp [List.flatMap_cons, hns]
        have hdmemflat : d ∈ ((some ci) :: L2).flatMap getDomNodes := by
          rw [hfmcons]
          exact List.mem_cons_self _ _
        have hdB : d ∉ B := hdisj d hdmemflat
        have hstep : (if st.parentOf d ≠ some pd ∨ nextSiblingOf st d ≠ B.head?
              then insertInstance st pd (some ci) (B.head?) else st) =
            insStep pd (B.head?) st d := by
          by_cases hcc : st.parentOf d = some pd ∧ nextSiblingOf st d = B.head?
          · rw [if_neg (fun h => h.elim (fun h1 => h1 hcc.1) (fun h2 => h2 hcc.2))]
            simp only [insStep, if_pos hcc]
          · rw [if_pos (not_and_or.mp hcc)]
            exact insertInstance_single st pd (some ci) (B.head?) d hns
        obtain ⟨hs1, hs2, hs3⟩ := insStep_spec pd d st U B hlist hnd hcons hdB
        have hcl := List.nodup_cons.mp (by rw [hfmcons] at hfnd; exact hfnd)
        have hdnotT : d ∉ L2.flatMap getDomNodes := hcl.1
        have hfndT : (L2.flatMap getDomNodes).Nodup := hcl.2
        have hdisjT : ∀ y ∈ L2.flatMap getDomNodes, y ∉ d :: B := by
          intro y hy hmem
          rcases List.mem_cons.mp hmem with h1 | h1
          · exact hdnotT (h1 ▸ hy)
          · exact hdisj y (by rw [hfmcons]; exact List.mem_cons_of_mem d hy) h1
        have houtT : ∀ y ∈ L2.flatMap getDomNodes, y ∉ U.filter (fun x => x ≠ d) →
            (insStep pd (B.head?) st d).parentOf y = none := by
          intro y hy hnin
          have hyd : y ≠ d := fun he => hdnotT (he ▸ hy)
          rw [hs3 y hyd]
          refine hout y (by rw [hfmcons]; exact List.mem_cons_of_mem d hy) ?_
          intro hyU
          exact hnin (List.mem_filter.mpr ⟨hyU, by simp [hyd]⟩)
        have hdfilter : d ∉ U.filter (fun x => x ≠ d) := by
          intro hm
          have := List.of_mem_filter hm
          simp at this
        have hndT : (U.filter (fun x => x ≠ d) ++ d :: B).Nodup := by
          have hsubl : (U.filter (fun x => x ≠ d) ++ B).Sublist (U ++ B) :=
            List.Sublist.append (List.filter_sublist U) (List.Sublist.refl B)
          have hnd3 : (U.filter (fun x => x ≠ d) ++ B).Nodup := hnd.sublist hsubl
          refine List.nodup_middle.mpr (List.nodup_cons.mpr ⟨?_, hnd3⟩)
          intro hm
          rcases List.mem_append.mp hm with h1 | h1
          · exact hdfilter h1
          · exact hdB h1
        have hrec := ih (insStep pd (B.head?) st d) (U.filter (fun x => x ≠ d)) (d :: B)
          honeT hs1 hndT hs2 hfndT hdisjT houtT
        rw [show (d :: B).head? = some d from rfl] at hrec
        simp only [adjustGo, hfd]
        rw [hstep, hrec]
        have hfeq : (U.filter (fun x => x ≠ d)).filter
            (fun x => decide (x ∉ L2.flatMap getDomNodes)) =
            U.filter (fun x => decide (x ∉ d :: L2.flatMap getDomNodes)) := by
          rw [List.filter_filter]
          refine List.filter_congr ?_
          intro x _
          by_cases hx1 : x = d
          · simp [hx1]
          · by_cases hx2 : x ∈ L2.flatMap getDomNodes
            all_goals simp [hx1, hx2]
        rw [hfeq]
        simp only [hfmcons, List.reverse_cons, List.flatMap_append, List.flatMap_cons,
          hns, List.flatMap_nil, List.append_nil, List.append_assoc, List.singleton_append]

theorem adjustGo_noop (pd : Nat) :
    ∀ (L : List (Option Instance)) (anchor : Option Nat) (st : St),
      allInPlace pd st L anchor → adjustGo pd L anchor st = st := by
  intro L
  induction L with
  | nil => intro anchor st _; rfl
  | cons c L2 ih =>
    intro anchor st hip
    rcases c with _ | ci
    · simp only [adjustGo]
      exact ih anchor st (by simpa [allInPlace, getFirstDom] using hip)
    · rcases hfd : getFirstDom (some ci) with _ | fd
      · simp only [adjustGo, hfd]
        have hip2 : allInPlace pd st L2 anchor := by
          have h0 := hip
          simp only [allInPlace, hfd] at h0
          exact h0
        exact ih anchor st hip2
      · have hip2 := hip
        simp only [allInPlace, hfd] at hip2
        obtain ⟨h1, h2, h3⟩ := hip2
        simp only [adjustGo, hfd]
        rw [if_neg (fun h => h.elim (fun hh => hh h1) (fun hh => hh h2))]
        exact ih (some fd) st h3

theorem adjustDomOrder_orders (pd : Nat) (result : List (Option Instance)) (st : St)
    (hone : ∀ ci, some ci ∈ result → (getDomNodes (some ci)).length ≤ 1)
    (hcons : ∀ x, x ∈ st.childListOf pd ↔ st.parentOf x = some pd)
    (hnd : (st.childListOf pd).Nodup)
    (hfnd : (result.flatMap getDomNodes).Nodup)
    (hout : ∀ y ∈ result.flatMap getDomNodes, y ∉ st.childListOf pd → st.parentOf y = none)
    (hsub : ∀ x ∈ st.childListOf pd, x ∈ result.flatMap getDomNodes) :
    (adjustDomOrder st pd result).childListOf pd = result.flatMap getDomNodes := by
  have hperm := permFlatMap result.reverse result getDomNodes (List.reverse_perm result)
  have honeR : ∀ ci, some ci ∈ result.reverse → (getDomNodes (some ci)).length ≤ 1 :=
    fun ci hci => hone ci (List.mem_reverse.mp hci)
  have hfndR : (result.reverse.flatMap getDomNodes).Nodup := hperm.nodup_iff.mpr hfnd
  have hmemR : ∀ y, y ∈ result.reverse.flatMap getDomNodes ↔
      y ∈ result.flatMap getDomNodes := fun y => hperm.mem_iff
  have h0 := adjustGo_orders pd result.reverse st (st.childListOf pd) []
    honeR (by simp) (by simpa using hnd) hcons hfndR
    (fun y _ => List.not_mem_nil y)
    (fun y hy hnin => hout y ((hmemR y).mp hy) hnin)
  have h1 : adjustDomOrder st pd result =
      adjustGo pd result.reverse (([] : List Nat).head?) st := rfl
  rw [h1, h0]
  have hfil : (st.childListOf pd).filter
      (fun x => decide (x ∉ result.reverse.flatMap getDomNodes)) = [] := by
    rw [List.filter_eq_nil]
    intro a ha
    simp only [decide_eq_true_eq, not_not]
    exact (hmemR a).mpr (hsub a ha)
  rw [hfil]
  simp

/-- C8: the placement pass of reconcileChildren.  (i) For result children
each owning at most one concrete node, the target child list ends up
exactly the concatenation of the children's concrete nodes in new
descriptor order (under the parent-pointer consistency and no-duplicate
hypotheses of a render target, with every current child owned by the
result and every foreign node detached).  (ii) The single right-to-left
pass moves a child only when its first concrete node is not already
immediately before the current anchor: if every child is in place, the
pass returns the state untouched.  (iii) Concretely, rotating mounted
keyed children [A(key 1), B(key 2), C(key 3)] to [C, A, B] reuses all
three instances (identities 2, 0, 1 — no creation mutation) and reorders
the target children from [1, 2, 3] to [3, 1, 2] with two move
mutations. -/
theorem reorder_spec (pd : Nat) :
    (∀ (result : List (Option Instance)) (st : St),
      (∀ ci, some ci ∈ result → (getDomNodes (some ci)).length ≤ 1) →
      (∀ x, x ∈ st.childListOf pd ↔ st.parentOf x = some pd) →
      (st.childListOf pd).Nodup →
      (result.flatMap getDomNodes).Nodup →
      (∀ y ∈ result.flatMap getDomNodes, y ∉ st.childListOf pd → st.parentOf y = none) →
      (∀ x ∈ st.childListOf pd, x ∈ result.flatMap getDomNodes) →
      (adjustDomOrder st pd result).childListOf pd = result.flatMap getDomNodes) ∧
    (∀ (L : List (Option Instance)) (anchor : Option Nat) (st : St),
      allInPlace pd st L anchor → adjustGo pd L anchor st = st) ∧
    (c8First.map (fun r => (r.1.map (Option.map Instance.iid), r.2.childListOf 0)) =
      some ([some 0, some 1, some 2], [1, 2, 3])) ∧
    (c8Second.map (fun r => (r.1.map (Option.map Instance.iid), r.2.childListOf 0)) =
      some ([some 2, some 0, some 1], [3, 1, 2])) ∧
    (c8Second.map (fun r => ((r.2.log.drop 6).countP Mutation.isCreate, r.2.log.drop 6)) =
      some (0, [.appendChild 0 2, .insertBefore 0 1 2])) :=
  ⟨fun result st h1 h2 h3 h4 h5 h6 => adjustDomOrder_orders pd result st h1 h2 h3 h4 h5 h6,
   adjustGo_noop pd, by rfl, by rfl, by rfl⟩

/-- C8 witness: on a target holding children [1, 2], reordering the two
singleton HOST children to [2, 1] produces exactly [2, 1]; walking the
same children right-to-left when they are already in place leaves the
state untouched. -/
theorem reorder_spec_witness :
    ((adjustDomOrder c8Wit 0 [some c8InstB, some c8InstA]).childListOf 0 = [2, 1]) ∧
    (adjustGo 0 [some c8InstB, some c8InstA] none c8Wit = c8Wit) := by
  constructor
  · refine (reorder_spec 0).1 [some c8InstB, some c8InstA] c8Wit ?_ ?_ ?_ ?_ ?_ ?_
    · intro ci hci
      rcases List.mem_cons.mp hci with h | h
      · obtain rfl := Option.some.inj h
        decide
      · rcases List.mem_cons.mp h with h2 | h2
        · obtain rfl := Option.some.inj h2
          decide
        · cases h2
    · intro x
      by_cases h1 : x = 1
      · simp [c8Wit, emptySt, h1]
      · by_cases h2 : x = 2
        all_goals simp [c8Wit, emptySt, h1, h2]
    · decide
    · decide
    · intro y hy hnin
      exfalso
      apply hnin
      have hy2 : y ∈ ([2, 1] : List Nat) := hy
      have hy3 : y ∈ ([1, 2] : List Nat) := by
        rcases List.mem_cons.mp hy2 with h | h
        · simp [h]
        · have h4 : y = 1 := by simpa using h
          simp [h4]
      exact hy3
    · intro x hx
      have hx2 : x ∈ ([1, 2] : List Nat) := hx
      have hx3 : x ∈ ([2, 1] : List Nat) := by
        rcases List.mem_cons.mp hx2 with h | h
        · simp [h]
        · have h4 : x = 2 := by simpa using h
          simp [h4]
      exact hx3
  · exact (reorder_spec 0).2.1 [some c8InstB, some c8InstA] none c8Wit
      ⟨by decide, by decide, by decide, by decide, trivial⟩

theorem foldl_self {α : Type} (f : St → α → St) (l : List α)
    (h : ∀ x ∈ l, ∀ s, f s x = s) : ∀ s, l.foldl f s = s := by
  induction l with
  | nil => intro s; rfl
  | cons a t ih =>
    intro s
    rw [List.foldl_cons, h a (List.mem_cons_self a t) s]
    exact ih (fun x hx => h x (List.mem_cons_of_mem a hx)) s

/-- Updating an element's props with the very same props touches
nothing, as long as the prop list is self-consistent (the first entry
for every key is that entry). -/
theorem updateDomProps_self (st : St) (d : Nat) (attrs : List (String × PropVal))
    (h : ∀ kv ∈ attrs, alGet attrs kv.1 = some kv.2) :
    updateDomProps st d attrs attrs = st := by
  simp only [updateDomProps]
  have h1 : ∀ s, attrs.foldl
      (fun st kv =>
        if kv.1 = "children" then st
        else if alHas attrs kv.1 then st
        else if kv.1.startsWith "on" then
          removeEventListenerOp st d (eventTypeOf kv.1) kv.2
        else if kv.1 = "className" then setClassNameOp st d ""
        else
          match kv.2 with
          | .styleObj _ entries =>
            if kv.1 = "style" then
              entries.foldl (fun st e => setStylePropOp st d e.1 "") st
            else removeAttributeOp st d kv.1
          | _ => removeAttributeOp st d kv.1) s = s := by
    refine foldl_self _ attrs ?_
    intro kv hkv s
    by_cases hch : kv.1 = "children"
    · rw [if_pos hch]
    · rw [if_neg hch, if_pos (by simp [alHas, h kv hkv])]
  rw [h1]
  refine foldl_self _ attrs ?_ st
  intro kv hkv s
  by_cases hch : kv.1 = "children"
  · rw [if_pos hch]
  · rw [if_neg hch, if_pos (h kv hkv)]

theorem ofList_toList : ∀ il : InstList, InstList.ofList il.toList = il
  | .nil => rfl
  | .consNull t => by simp [InstList.toList, InstList.ofList, ofList_toList t]
  | .consInst c t => by simp [InstList.toList, InstList.ofList, ofList_toList t]

theorem instListDomNodes_eq_flat : ∀ il : InstList,
    instListDomNodes il = il.toList.flatMap getDomNodes
  | .nil => rfl
  | .consNull t => by
    simpa [InstList.toList, instListDomNodes, getDomNodes] using instListDomNodes_eq_flat t
  | .consInst c t => by
    simp [InstList.toList, instListDomNodes, getDomNodes, instListDomNodes_eq_flat t]

theorem cleanupUnusedHooks_empty (h : HookEnv) (st : St) (hha : st.hookArr = []) :
    cleanupUnusedHooks h st = st := by
  simp only [cleanupUnusedHooks, hha, List.foldl_nil]
  rw [← hha]

theorem wfI_key (cl : Nat → List Nat) (par : Nat → Option Nat) (itx : Nat → Bool)
    (pd : Nat) (i : Instance) (h : wfI cl par itx pd i = true) : i.key = i.node.key := by
  cases i with
  | mk kind dom node children key path iid =>
    cases node with
    | mk ntype nkey attrs vch =>
      simp only [wfI, Bool.and_eq_true, decide_eq_true_eq] at h
      exact h.1

theorem wfI_nodes_single (cl : Nat → List Nat) (par : Nat → Option Nat) (itx : Nat → Bool)
    (pd : Nat) (i : Instance) (h : wfI cl par itx pd i = true) :
    (instDomNodes i).length ≤ 1 := by
  cases i with
  | mk kind dom node children key path iid =>
    cases node with
    | mk ntype nkey attrs vch =>
      rcases ntype with _ | _ | tag | ⟨cid, name⟩
      · simp only [wfI, Bool.and_eq_true, decide_eq_true_eq] at h
        obtain ⟨h1, hk, h2⟩ := h
        subst hk
        simp only [instDomNodes]
        rcases dom with _ | d <;> simp
      · exact absurd h (by simp [wfI])
      · simp only [wfI, Bool.and_eq_true, decide_eq_true_eq] at h
        obtain ⟨h1, hk, h2⟩ := h
        subst hk
        simp only [instDomNodes]
        rcases dom with _ | d <;> simp
      · exact absurd h (by simp [wfI])

theorem wfL_facts (cl : Nat → List Nat) (par : Nat → Option Nat) (itx : Nat → Bool)
    (pd : Nat) :
    ∀ (il : InstList) (vs : List VNode), wfL cl par itx pd il vs = true →
      il.toList = (instsOf il).map some ∧
      vs = (instsOf il).map Instance.node ∧
      (∀ c ∈ instsOf il, wfI cl par itx pd c = true ∧ c.key = none ∧
        c.node.key = none)
  | .nil, vs => by
    intro h
    cases vs with
    | nil => exact ⟨rfl, rfl, fun c hc => absurd hc (List.not_mem_nil c)⟩
    | cons v vs2 => exact absurd h (by simp [wfL])
  | .consNull t, vs => by
    intro h
    cases vs with
    | nil => exact absurd h (by simp [wfL])
    | cons v vs2 => exact absurd h (by simp [wfL])
  | .consInst c t, vs => by
    intro h
    cases vs with
    | nil => exact absurd h (by simp [wfL])
    | cons v vs2 =>
      simp only [wfL, Bool.and_eq_true, decide_eq_true_eq] at h
      obtain ⟨⟨⟨hnode, hkey⟩, hwf⟩, hrest⟩ := h
      obtain ⟨h1, h2, h3⟩ := wfL_facts cl par itx pd t vs2 hrest
      refine ⟨by simp [InstList.toList, instsOf, h1], ?_, ?_⟩
      · simp only [instsOf, List.map_cons]
        rw [← hnode, h2]
      · intro c2 hc2
        rcases List.mem_cons.mp hc2 with rfl | hc2
        · exact ⟨hwf, hkey, by rw [← wfI_key cl par itx pd c2 hwf]; exact hkey⟩
        · exact h3 c2 hc2

theorem allInPlace_of_layout (pd : Nat) :
    ∀ (W : List (Option Instance)) (st : St) (pre B : List Nat),
      st.childListOf pd = pre ++ W.reverse.flatMap getDomNodes ++ B →
      (st.childListOf pd).Nodup →
      (∀ x ∈ st.childListOf pd, st.parentOf x = some pd) →
      (∀ ci, some ci ∈ W → (getDomNodes (some ci)).length ≤ 1) →
      allInPlace pd st W (B.head?) := by
  intro W
  induction W with
  | nil => intro st pre B _ _ _ _; trivial
  | cons w W2 ih =>
    intro st pre B hlist hnd hpar hone
    have honeT : ∀ ci, some ci ∈ W2 → (getDomNodes (some ci)).length ≤ 1 :=
      fun ci hci => hone ci (List.mem_cons_of_mem _ hci)
    have hrevflat : (w :: W2).reverse.flatMap getDomNodes =
        W2.reverse.flatMap getDomNodes ++ getDomNodes w := by
      simp [List.reverse_cons, List.flatMap_append]
    rcases w with _ | ci
    · show allInPlace pd st (none :: W2) (B.head?)
      have : getFirstDom (none : Option Instance) = none := rfl
      simp only [allInPlace, this]
      refine ih st pre B ?_ hnd hpar honeT
      rw [hlist, hrevflat]
      simp [getDomNodes]
    · rcases hns : getDomNodes (some ci) with _ | ⟨d, ns2⟩
      · have hfd : getFirstDom (some ci) = none := by
          show instFirstDom ci = none
          rw [instFirstDom_eq, show instDomNodes ci = [] from hns]
          rfl
        simp only [allInPlace, hfd]
        refine ih st pre B ?_ hnd hpar honeT
        rw [hlist, hrevflat, hns]
        simp
      · have hns2 : ns2 = [] := by
          have h0 := hone ci (List.mem_cons_self _ _)
          rw [hns] at h0
          simp only [List.length_cons] at h0
          exact List.eq_nil_of_length_eq_zero (by omega)
        subst hns2
        have hfd : getFirstDom (some ci) = some d := by
          show instFirstDom ci = some d
          rw [instFirstDom_eq, show instDomNodes ci = [d] from hns]
          rfl
        simp only [allInPlace, hfd]
        have hlist2 : st.childListOf pd =
            (pre ++ W2.reverse.flatMap getDomNodes) ++ d :: B := by
          rw [hlist, hrevflat, hns]
          simp
        have hdmem : d ∈ st.childListOf pd := by
          rw [hlist2]
          exact List.mem_append.mpr (Or.inr (List.mem_cons_self d B))
        refine ⟨hpar d hdmem, ?_, ?_⟩
        · simp only [nextSiblingOf, hpar d hdmem]
          rw [hlist2]
          refine elemAfter_append d B (pre ++ W2.reverse.flatMap getDomNodes) ?_
          intro hdpre
          have hnd2 := hnd
          rw [hlist2] at hnd2
          have hmid := List.nodup_middle.mp hnd2
          exact (List.nodup_cons.mp hmid).1 (List.mem_append.mpr (Or.inl hdpre))
        · have hih := ih st pre (d :: B) (by rw [hlist2]) hnd hpar honeT
          exact hih

theorem partition_unkeyed (cs : List Instance) (hk : ∀ c ∈ cs, c.key = none) :
    partitionChildren (cs.map some) = ([], cs) := by
  have haux : ∀ (cs2 : List Instance), (∀ c ∈ cs2, c.key = none) →
      ∀ (acc : List (String × Instance) × List Instance),
      (cs2.map some).foldl
        (fun acc child =>
          match child with
          | none => acc
          | some c =>
            match c.key with
            | some k => (alSet acc.1 k c, acc.2)
            | none => (acc.1, acc.2 ++ [c]))
        acc = (acc.1, acc.2 ++ cs2) := by
    intro cs2
    induction cs2 with
    | nil => intro _ acc; simp
    | cons c t ih =>
      intro hks acc
      simp only [List.map_cons, List.foldl_cons]
      simp only [hks c (List.mem_cons_self c t)]
      rw [ih (fun x hx => hks x (List.mem_cons_of_mem c hx)) (acc.1, acc.2 ++ [c])]
      simp
  have h0 := haux cs hk ([], [])
  simpa [partitionChildren] using h0

theorem claimedPairs_unkeyed_id :
    ∀ (cs2 : List Instance) (cs : List Instance) (uidx : Nat),
      (∀ j, cs.get? (uidx + j) = cs2.get? j) →
      (∀ c ∈ cs2, c.node.key = none) →
      claimedPairs [] cs uidx (cs2.map Instance.node) =
        (cs2.map (fun c => (some c, c.node)), [], uidx + cs2.length) := by
  intro cs2
  induction cs2 with
  | nil => intro cs uidx _ _; simp [claimedPairs]
  | cons c t ih =>
    intro cs uidx halign hkeys
    have hk : c.node.key = none := hkeys c (List.mem_cons_self c t)
    have h0 : cs.get? uidx = some c := by
      have := halign 0
      simpa using this
    simp only [List.map_cons, claimedPairs, hk, h0]
    rw [ih cs (uidx + 1) (fun j => by
        have := halign (j + 1)
        rw [show uidx + (j + 1) = uidx + 1 + j by omega] at this
        simpa using this)
      (fun x hx => hkeys x (List.mem_cons_of_mem c hx))]
    simp only [List.length_cons, Prod.mk.injEq]
    refine ⟨trivial, trivial, by omega⟩

theorem noop_rcFold (env : Env) (N : Nat) (hA : ∀ g, g < N → NoopReconcile env g) :
    ∀ (cs : List Instance) (F : Nat), F ≤ N →
    ∀ (pd i0 : Nat) (sibs : List VNode) (path : String) (st : St)
      (r : List (Option Instance) × St),
      (∀ c ∈ cs, wfInstSt st pd c = true) →
      rcFold env pd F (cs.map (fun c => (some c, c.node))) i0 sibs path st = some r →
      r = (cs.map some, st) := by
  intro cs
  induction cs with
  | nil =>
    intro F _ pd i0 sibs path st r _ h
    rcases F with _ | F
    · simp [rcFold] at h
    · rw [show rcFold env pd (F + 1) ([].map (fun c : Instance => (some c, c.node)))
          i0 sibs path st = some ([], st) from rfl] at h
      obtain rfl := Option.some.inj h
      rfl
  | cons c t ih =>
    intro F hF pd i0 sibs path st r hwf h
    rcases F with _ | F
    · simp [rcFold] at h
    · simp only [List.map_cons, rcFold] at h
      rcases hrc : reconcile env F pd (some c) (some c.node)
          (createChildPath path c.node.key i0 (some c.node.ntype) sibs) st with _ | a
      · rw [hrc] at h
        cases h
      · rw [hrc] at h
        have ha := hA F (by omega) pd c
          (createChildPath path c.node.key i0 (some c.node.ntype) sibs) st a
          (hwf c (List.mem_cons_self c t)) hrc
        subst ha
        rcases Option.map_eq_some'.mp h with ⟨b, hb1, hb2⟩
        have hb := ih F (by omega) pd (i0 + 1) sibs path st b
          (fun x hx => hwf x (List.mem_cons_of_mem c hx)) hb1
        subst hb
        rw [← hb2]
        rfl

theorem noop_reconcileChildren (env : Env) (N : Nat)
    (hA : ∀ g, g < N → NoopReconcile env g) :
    ∀ (f : Nat), f ≤ N →
    ∀ (pd : Nat) (il : InstList) (vs : List VNode) (path : String) (st : St)
      (r : List (Option Instance) × St),
      wfL st.childListOf st.parentOf st.isText pd il vs = true →
      st.childListOf pd = instListDomNodes il →
      (st.childListOf pd).Nodup →
      (∀ x ∈ st.childListOf pd, st.parentOf x = some pd) →
      reconcileChildren env f pd il.toList vs path st = some r →
      r = (il.toList, st) := by
  intro f hf pd il vs path st r hwl hlay hnd hpar h
  obtain ⟨hto, hvs, hall⟩ := wfL_facts st.childListOf st.parentOf st.isText pd il vs hwl
  rcases f with _ | f2
  · simp [reconcileChildren, reconcilerAt] at h
  · rw [reconcileChildren_decomp env f2 pd il.toList vs path st] at h
    rw [hto, hvs] at h
    have hcp := claimedPairs_unkeyed_id (instsOf il) (instsOf il) 0
      (fun j => by rw [Nat.zero_add]) (fun c hc => (hall c hc).2.2)
    have hpart := partition_unkeyed (instsOf il) (fun c hc => (hall c hc).2.1)
    have huncl : unclaimedOf ((instsOf il).map some) ((instsOf il).map Instance.node) = [] := by
      simp only [unclaimedOf, hpart, hcp]
      simp [List.drop_length]
    simp only [hpart, hcp] at h
    rcases hrcf : rcFold env pd f2
        ((instsOf il).map (fun c => (some c, c.node))) 0
        ((instsOf il).map Instance.node) path st with _ | a
    · rw [hrcf] at h
      cases h
    · rw [hrcf] at h
      have ha := noop_rcFold env N hA (instsOf il) f2 (by omega) pd 0
        ((instsOf il).map Instance.node) path st a
        (fun c hc => (hall c hc).1) hrcf
      subst ha
      have hip : allInPlace pd st (((instsOf il).map some).reverse)
          (([] : List Nat).head?) := by
        refine allInPlace_of_layout pd (((instsOf il).map some).reverse) st [] [] ?_ hnd hpar ?_
        · rw [List.reverse_reverse, hlay, instListDomNodes_eq_flat il, hto]
          simp
        · intro ci hci
          have hci2 : some ci ∈ (instsOf il).map some := List.mem_reverse.mp hci
          have hmem : ci ∈ instsOf il := by
            rcases List.mem_map.mp hci2 with ⟨x, hx1, hx2⟩
            obtain rfl := Option.some.inj hx2
            exact hx1
          exact wfI_nodes_single st.childListOf st.parentOf st.isText pd ci (hall ci hmem).1
      have hadj : adjustDomOrder st pd ((instsOf il).map some) = st :=
        adjustGo_noop pd (((instsOf il).map some).reverse) none st hip
      simp only [Option.map_some'] at h
      obtain rfl := Option.some.inj h
      rw [huncl]
      rw [show removeAll st pd ([] : List Instance) = st from rfl, hadj, hto]

set_option maxHeartbeats 1000000 in
theorem noop_AB (env : Env) : ∀ fuel : Nat, NoopReconcile env fuel ∧ NoopUpdate env fuel := by
  intro fuel
  induction fuel using Nat.strong_induction_on with
  | _ fuel ih =>
    constructor
    · intro pd i path st r hwf h
      rcases fuel with _ | f
      · simp [reconcile, reconcilerAt] at h
      · have hkey : i.key = i.node.key :=
          wfI_key st.childListOf st.parentOf st.isText pd i hwf
        have hne : ¬ (i.node.ntype ≠ i.node.ntype ∨ i.key ≠ i.node.key) :=
          fun hh => hh.elim (fun h1 => h1 rfl) (fun h2 => h2 hkey)
        have h0 : reconcile env (f + 1) pd (some i) (some i.node) path st =
            if i.node.ntype ≠ i.node.ntype ∨ i.key ≠ i.node.key then
              (mount env f pd i.node path (removeInstance st pd (some i))).map
                (fun r => (some r.1, r.2))
            else (update env f pd i i.node path st).map (fun r => (some r.1, r.2)) := rfl
        rw [h0, if_neg hne] at h
        rcases Option.map_eq_some'.mp h with ⟨a, ha1, ha2⟩
        have hupd := (ih f (by omega)).2 pd i path st a hwf ha1
        subst hupd
        rw [← ha2]
    · intro pd i path st r hwf h
      rcases fuel with _ | f
      · simp [update, reconcilerAt] at h
      · rcases i with ⟨kind, dom, node, children, key, path0, iid⟩
        rcases node with ⟨ntype, nkey, attrs, vch⟩
        rcases ntype with _ | _ | tag | ⟨cid, cname⟩
        · -- text
          simp only [wfInstSt, wfI, Bool.and_eq_true, decide_eq_true_eq] at hwf
          obtain ⟨hk1, hk2, hM⟩ := hwf
          rcases dom with _ | d
          · simp only [update, reconcilerAt, Instance.node, VNode.ntype, Instance.dom, VNode.attrs] at h
            obtain rfl := (Option.some.inj h)
            rfl
          · rcases hnv : alGet attrs "nodeValue" with _ | v
            · rw [hnv] at hM
              simp at hM
            · rcases v with s | nv | bv | _ | fid | ⟨soid, sentries⟩
              all_goals rw [hnv] at hM
              case str =>
                simp only [update, reconcilerAt, Instance.node, VNode.ntype, Instance.dom, VNode.attrs] at h
                have hcond : alGet attrs "nodeValue" =
                    some (PropVal.str (nodeValueStr attrs)) := by
                  rw [hnv]
                  simp [nodeValueStr, hnv, jsToString]
                rw [hcond] at h
                rw [if_pos rfl] at h
                obtain rfl := (Option.some.inj h)
                rfl
              all_goals simp at hM
        · -- fragment
          simp [wfInstSt, wfI] at hwf
        · -- host
          rcases dom with _ | d
          · simp only [update, reconcilerAt, Instance.node, VNode.ntype, Instance.dom, VNode.attrs] at h
            obtain rfl := (Option.some.inj h)
            rfl
          · simp only [wfInstSt, wfI, Bool.and_eq_true, decide_eq_true_eq] at hwf
            obtain ⟨hk1, hk2, hrest⟩ := hwf
            cases hitx : st.isText d with
            | true =>
              simp only [update, reconcilerAt, Instance.node, VNode.ntype, Instance.dom, VNode.attrs] at h
              rw [if_pos hitx] at h
              obtain rfl := (Option.some.inj h)
              rfl
            | false =>
              rw [hitx] at hrest
              simp only [Bool.false_eq_true, if_false, Bool.and_eq_true,
                decide_eq_true_eq] at hrest
              obtain ⟨⟨⟨⟨hattrs, hwL⟩, hcl⟩, hnodup⟩, hparAll⟩ := hrest
              have hattrs2 : ∀ kv ∈ attrs, alGet attrs kv.1 = some kv.2 := by
                intro kv hkv
                have := List.all_eq_true.mp hattrs kv hkv
                simpa using this
              have hpar2 : ∀ x ∈ st.childListOf d, st.parentOf x = some d := by
                intro x hx
                rw [hcl] at hx
                have := List.all_eq_true.mp hparAll x hx
                simpa using this
              simp only [update, reconcilerAt, Instance.node, VNode.ntype, Instance.dom, VNode.attrs] at h
              rw [if_neg (by rw [hitx]; exact fun hh => Bool.false_ne_true hh)] at h
              rw [updateDomProps_self st d attrs hattrs2] at h
              have hproj : ∀ (a : Nat) (b : List (Option Instance)) (c : List VNode)
                  (e : String) (s2 : St),
                  (reconcilerAt env f).reconcileChildrenF a b c e s2 =
                    reconcileChildren env f a b c e s2 := fun _ _ _ _ _ => rfl
              simp only [hproj, Instance.children, Instance.childrenL,
                filterValidChildren, VNode.children, VNode.childrenL] at h
              rcases hrc2 : reconcileChildren env f d children.toList vch.toList path st
                  with _ | a
              · rw [hrc2] at h
                cases h
              · rw [hrc2] at h
                have ha := noop_reconcileChildren env (f + 1)
                  (fun g hg => (ih g hg).1) f (by omega) d children vch.toList path st a
                  hwL hcl hnodup hpar2 hrc2
                subst ha
                simp only [Option.map_some'] at h
                obtain rfl := (Option.some.inj h)
                rw [ofList_toList children]
                rfl
        · -- component
          simp [wfInstSt, wfI] at hwf

set_option maxHeartbeats 1000000 in
/-- C9 counterexample: re-rendering the structurally identical fragment
tree is not mutation-free.  The first render of fragTree (a div holding a
two-text fragment and a text sibling) issues ten mutations and mounts
exactly the instance tree c9InstRoot over the DOM layout of c9MountedSt
(first conjunct); re-rendering the unchanged descriptor from that mounted
state issues five more mutations — the placement pass moves the fragment
texts and their sibling around (second conjunct) — refuting the
zero-mutation claim for arbitrary descriptor trees. -/
theorem noopRender_counterexample :
    (render trivialEnv 11 c9St0).map
        (fun s => (s.log.length, s.rootInstance, s.nextId, s.childListOf 0,
          s.childListOf 1, s.parentOf 1, s.rootNode)) =
      some (10, some c9InstRoot, 5, [1], [2, 3, 4], some 0, some fragTree) ∧
    (render trivialEnv 11 c9MountedSt).map St.log =
      some [Mutation.appendChild 1 3, Mutation.insertBefore 1 2 3,
        Mutation.appendChild 1 4, Mutation.insertBefore 1 2 4,
        Mutation.insertBefore 1 3 4] :=
  ⟨rfl, rfl⟩

/-- C9 (amended): the idempotent no-op render holds on host/text trees.
For a well-formed mounted host/text instance tree with unkeyed children
(wfInstSt: kinds match the descriptors, text nodes carry a string
nodeValue, attrs are self-consistent, child lists mirror the children's
concrete nodes, no hooks in the store), re-rendering the very same root
descriptor is a strict no-op: the resulting state is the old state with
only the visited set reset — in particular the mutation log is unchanged,
so no attribute is set or removed, no text changed, and no node created,
moved or removed.  (The restriction to host/text trees is necessary: the
fragment counterexample shows the placement pass moves multi-node
children even on identical re-renders.) -/
theorem noopRender_spec (env : Env) (fuel pd : Nat) (i : Instance) (st : St)
    (hwf : wfInstSt st pd i = true)
    (hrc : st.rootContainer = some pd) (hrn : st.rootNode = some i.node)
    (hri : st.rootInstance = some i) (hha : st.hookArr = []) :
    ∀ st2, render env fuel st = some st2 →
      st2 = { st with visited := [] } ∧ st2.log = st.log := by
  intro st2 h
  simp only [render, hrc, hrn, hri] at h
  rcases Option.map_eq_some'.mp h with ⟨a, ha1, ha2⟩
  have hwf2 : wfInstSt { st with visited := ([] : List String), rootContainer := some pd, rootNode := some i.node, rootInstance := some i } pd i = true := hwf
  have ha := (noop_AB env fuel).1 pd i "0" _ a hwf2 ha1
  subst ha
  simp only [Option.isSome_some, Option.isNone_some, Bool.false_eq_true, and_false,
    if_false] at ha2
  have hcu : cleanupUnusedHooks env.hook { st with visited := ([] : List String), rootContainer := some pd, rootNode := some i.node, rootInstance := some i } = { st with visited := ([] : List String), rootContainer := some pd, rootNode := some i.node, rootInstance := some i } := cleanupUnusedHooks_empty env.hook _ hha
  rw [hcu] at ha2
  constructor
  · rw [← ha2, ← hrc, ← hrn, ← hri]
  · rw [← ha2]

set_option maxHeartbeats 1000000 in
/-- C9 witness: on the mounted two-text-div state, re-rendering the
same tree returns the state unchanged apart from the reset visited set,
with an identical mutation log. -/
theorem noopRender_spec_witness :
    render trivialEnv 7 c9Mid = some { c9Mid with visited := [] } ∧
    (render trivialEnv 7 c9Mid).map St.log = some c9Mid.log := by
  obtain ⟨st2, hs⟩ : ∃ s, render trivialEnv 7 c9Mid = some s := ⟨_, rfl⟩
  have hh := noopRender_spec trivialEnv 7 0 c9MidInst c9Mid (by decide) rfl rfl rfl rfl
    st2 hs
  constructor
  · rw [hs, hh.1]
  · rw [hs]
    simp only [Option.map_some']
    rw [hh.2]

end MiniReact
